import Mathlib

/-!
# ruletrace: explainable evaluation of expr-lang expressions

A shallow embedding of the tracing core of `aqilarik/ruletrace`:

* `internal/format`  : `Format`, `escapeString`, `formatMember`, `formatSlice`
* `internal/patch`   : `IsShortCircuitOp`, `IsAtomNode`, `IsCondCall`, `CollectAtoms`,
                       `WrapAtomsWithCond`
* `internal/cond`    : `Recorder`
* `internal/eval`    : `Cache.getOrCompile`, `EvalString`
* `ruletrace`        : `Fingerprint`, `Tracer.evalChunks`, `Tracer.trace`, `Trace`, `TraceStrict`

The expression engine (`expr.Compile`, `expr.Run`) is an external collaborator and enters
as a parameter (`Engine`).  Go maps are association lists, mutation through pointers is
explicit state passing, and a Go `nil` child is `Option.none`.
-/

namespace Ruletrace

/-! ## Data model -/

/-- Dynamic values held by a Go `interface{}`: the untyped `nil`, booleans, integers and
strings; every other dynamic type (floats, slices, maps, ...) is `other`. -/
inductive Value where
  | nil
  | bool (b : Bool)
  | int (i : Int)
  | str (s : String)
  | other (tag : Nat)
  deriving DecidableEq, Repr

/-- Payload of an `ast.ConstantNode` (`Value any`), split along the type switch of `Format`:
`string`, `map[string]struct{}` (its keys, in any order), `[]byte`, and anything else, kept as
the text `%v` prints for it. -/
inductive ConstVal where
  | str (s : String)
  | set (keys : List String)
  | bytes (b : List UInt8)
  | other (text : String)
  deriving DecidableEq, Repr

/-- The node kinds of `github.com/expr-lang/expr/ast`.  A `FloatNode` keeps the text `%v`
prints for its value.  Children that may be a Go `nil` (`SliceNode.From`, `SliceNode.To`,
`BuiltinNode.Map`) are options. -/
inductive Node where
  | nilNode
  | identifier (value : String)
  | integer (value : Int)
  | float (text : String)
  | bool (value : Bool)
  | string (value : String)
  | constant (value : ConstVal)
  | unary (operator : String) (node : Node)
  | binary (operator : String) (left right : Node)
  | chain (node : Node)
  | member (node property : Node) (optional method : Bool)
  | slice (node : Node) (sfrom sto : Option Node)
  | call (callee : Node) (arguments : List Node)
  | builtin (name : String) (arguments : List Node) (map : Option Node)
  | predicate (node : Node)
  | pointer (name : String)
  | conditional (cond exp1 exp2 : Node)
  | variableDeclarator (name : String) (value expr : Node)
  | sequence (nodes : List Node)
  | array (nodes : List Node)
  | map (pairs : List Node)
  | pair (key value : Node)
  deriving Repr

/-- Metadata attached to an atomic predicate (`patch.ConditionSpec`). -/
structure ConditionSpec where
  ID : String
  ReasonTrue : String
  ReasonFalse : String
  deriving DecidableEq, Repr

/-- A Go `map[string]ConditionSpec`, as an association list keyed by fingerprint. -/
abbrev Specs := List (String × ConditionSpec)

/-! ## internal/format -/

/-- Go `strings.ReplaceAll(s, old, new)` for a one-character `old`. -/
def replaceAll (s : String) (old : Char) (new : String) : String :=
  String.join (s.data.map fun c => if c = old then new else String.singleton c)

/-- Go `escapeString`: five successive replacements. -/
def escapeString (s : String) : String :=
  let s := replaceAll s '\\' "\\\\"
  let s := replaceAll s '"' "\\\""
  let s := replaceAll s '\n' "\\n"
  let s := replaceAll s '\t' "\\t"
  let s := replaceAll s '\r' "\\r"
  s

/-- Go `fmt.Sprintf("\"%s\"", escapeString(v))`. -/
def quote (v : String) : String := "\"" ++ escapeString v ++ "\""

/-- One lowercase hexadecimal digit. -/
def hexDigit (n : Nat) : Char :=
  if n < 10 then Char.ofNat (48 + n) else Char.ofNat (87 + n)

/-- Go `fmt.Sprintf("%02x", x)` and the per-byte step of `hex.EncodeToString`. -/
def hexByte (x : UInt8) : String :=
  String.mk [hexDigit (x.toNat / 16), hexDigit (x.toNat % 16)]

/-- Go `formatBytesLiteral`. -/
def formatBytesLiteral (b : List UInt8) : String :=
  let printable := b.all fun x => !(x < 0x20 || x > 0x7e || x = 0x22 || x = 0x5c)
  if printable then
    "b\"" ++ String.mk (b.map fun x => Char.ofNat x.toNat) ++ "\""
  else
    "b\"" ++ String.join (b.map fun x => "\\x" ++ hexByte x) ++ "\""

/-- Go `sort.Strings` (insertion into an ascending list). -/
def sortStrings (keys : List String) : List String :=
  keys.insertionSort (fun a b => a ≤ b)

/-- The `ConstantNode` case of `Format`. -/
def formatConstant : ConstVal → String
  | .str v => quote v
  | .set keys => "[" ++ ", ".intercalate ((sortStrings keys).map quote) ++ "]"
  | .bytes b => formatBytesLiteral b
  | .other text => text

mutual
/-- Go `(*Formatter).Format`, with `formatMember` and `formatSlice` inlined in their cases.
The switch is exhaustive over `Node`, so the `node.String()` fallback has no case. -/
def Format : Node → String
  | .nilNode => "nil"
  | .identifier value => value
  | .integer value => toString value
  | .float text => text
  | .bool value => if value then "true" else "false"
  | .string value => quote value
  | .constant value => formatConstant value
  | .unary operator node =>
    if operator = "not" then "not " ++ Format node else operator ++ Format node
  | .binary operator left right => Format left ++ " " ++ operator ++ " " ++ Format right
  | .conditional cond exp1 exp2 => Format cond ++ " ? " ++ Format exp1 ++ " : " ++ Format exp2
  | .sequence nodes => "; ".intercalate (FormatList nodes)
  | .variableDeclarator name value expr =>
    "let " ++ name ++ " = " ++ Format value ++ "; " ++ Format expr
  | .array nodes => "[" ++ ", ".intercalate (FormatList nodes) ++ "]"
  | .map pairs => "\x7b" ++ ", ".intercalate (FormatList pairs) ++ "\x7d"
  | .pair key value => Format key ++ ": " ++ Format value
  | .call callee arguments =>
    Format callee ++ "(" ++ ", ".intercalate (FormatList arguments) ++ ")"
  | .builtin name arguments map =>
    name ++ "(" ++ ", ".intercalate (FormatOpt map ++ FormatList arguments) ++ ")"
  | .predicate node => "\x7b" ++ Format node ++ "\x7d"
  | .pointer name => if name = "" then "#" else "#" ++ name
  | .member node property optional method =>
    match property, method with
    | .string value, false =>
      if optional then Format node ++ "?." ++ value else Format node ++ "." ++ value
    | _, _ =>
      if optional then Format node ++ "?.[" ++ Format property ++ "]"
      else Format node ++ "[" ++ Format property ++ "]"
  | .chain node => Format node
  | .slice node sfrom sto =>
    Format node ++ "[" ++ String.join (FormatOpt sfrom) ++ ":" ++ String.join (FormatOpt sto) ++ "]"
/-- The loops `for _, a := range nodes { parts = append(parts, f.Format(a)) }`.  For the pairs
of a `MapNode` the source renders each `*ast.PairNode` as `key: value`, which is `Format` of
the pair. -/
def FormatList : List Node → List String
  | [] => []
  | n :: ns => Format n :: FormatList ns
/-- A child that may be a Go `nil`: no text when it is. -/
def FormatOpt : Option Node → List String
  | none => []
  | some n => [Format n]
end

/-! ## internal/patch: atoms -/

/-- Go `IsShortCircuitOp`. -/
def IsShortCircuitOp (op : String) : Bool :=
  op = "||" || op = "or" || op = "&&" || op = "and" || op = "??"

/-- Go `IsAtomNode`. -/
def IsAtomNode : Node → Bool
  | .binary operator _ _ =>
    operator = "==" || operator = "!=" || operator = "<" || operator = "<=" ||
    operator = ">" || operator = ">=" || operator = "in" || operator = "matches" ||
    operator = "contains" || operator = "startsWith" || operator = "endsWith"
  | _ => false

/-- Go `IsCondCall`. -/
def IsCondCall : Node → Bool
  | .call (.identifier value) _ => value = "Cond"
  | _ => false

mutual
/-- Go `collectAtoms`, returning what it appends to `out`. -/
def collectAtoms : Node → List Node
  | .chain node => collectAtoms node
  | .binary operator left right =>
    if IsAtomNode (.binary operator left right) then [.binary operator left right]
    else collectAtoms left ++ collectAtoms right
  | .call callee arguments =>
    if IsCondCall (.call callee arguments) then [.call callee arguments]
    else collectAtoms callee ++ collectAtomsList arguments
  | .unary _ node => collectAtoms node
  | .conditional cond exp1 exp2 => collectAtoms cond ++ collectAtoms exp1 ++ collectAtoms exp2
  | .builtin _ arguments map => collectAtomsOpt map ++ collectAtomsList arguments
  | .member node property _ _ => collectAtoms node ++ collectAtoms property
  | .slice node sfrom sto => collectAtoms node ++ collectAtomsOpt sfrom ++ collectAtomsOpt sto
  | .array nodes => collectAtomsList nodes
  | .map pairs => collectAtomsList pairs
  | .pair key value => collectAtoms key ++ collectAtoms value
  | .sequence nodes => collectAtomsList nodes
  | .variableDeclarator _ value expr => collectAtoms value ++ collectAtoms expr
  | .predicate node => collectAtoms node
  | .nilNode => []
  | .identifier _ => []
  | .integer _ => []
  | .float _ => []
  | .bool _ => []
  | .string _ => []
  | .constant _ => []
  | .pointer _ => []
/-- The loops `for _, a := range nodes { collectAtoms(a, out) }`. -/
def collectAtomsList : List Node → List Node
  | [] => []
  | n :: ns => collectAtoms n ++ collectAtomsList ns
/-- The guard `if n == nil { return }` on a child that may be a Go `nil`. -/
def collectAtomsOpt : Option Node → List Node
  | none => []
  | some n => collectAtoms n
end

/-- Go `CollectAtoms`. -/
def CollectAtoms (n : Node) : List Node := collectAtoms n

/-! ## internal/patch: wrapping atoms -/

/-- The post-order step of `walk`: an atom whose fingerprint is a key of `specs` with a
non-empty ID becomes `Cond(id, reasonTrue, reasonFalse, atom)`; everything else is kept. -/
def wrapAtom (fingerprint : String → String) (specs : Specs) (n : Node) : Node :=
  if IsCondCall n || !IsAtomNode n then n
  else
    let atomExpr := Format n
    let fp := fingerprint atomExpr
    match specs.lookup fp with
    | none => n
    | some spec =>
      if spec.ID = "" then n
      else
        .call (.identifier "Cond")
          [.string spec.ID, .string spec.ReasonTrue, .string spec.ReasonFalse, n]

mutual
/-- The closure `walk` of `WrapAtomsWithCond`: recurse into the children, then wrap the
node itself.  The in-place update `ast.Patch(n, wrapped)` is the returned node. -/
def walk (fingerprint : String → String) (specs : Specs) : Node → Node
  | .binary operator left right =>
    wrapAtom fingerprint specs
      (.binary operator (walk fingerprint specs left) (walk fingerprint specs right))
  | .unary operator node => wrapAtom fingerprint specs (.unary operator (walk fingerprint specs node))
  | .conditional cond exp1 exp2 =>
    wrapAtom fingerprint specs
      (.conditional (walk fingerprint specs cond) (walk fingerprint specs exp1)
        (walk fingerprint specs exp2))
  | .call callee arguments =>
    wrapAtom fingerprint specs
      (.call (walk fingerprint specs callee) (walkList fingerprint specs arguments))
  | .builtin name arguments map =>
    wrapAtom fingerprint specs
      (.builtin name (walkList fingerprint specs arguments) (walkOpt fingerprint specs map))
  | .member node property optional method =>
    wrapAtom fingerprint specs
      (.member (walk fingerprint specs node) (walk fingerprint specs property) optional method)
  | .slice node sfrom sto =>
    wrapAtom fingerprint specs
      (.slice (walk fingerprint specs node) (walkOpt fingerprint specs sfrom)
        (walkOpt fingerprint specs sto))
  | .array nodes => wrapAtom fingerprint specs (.array (walkList fingerprint specs nodes))
  | .map pairs => wrapAtom fingerprint specs (.map (walkList fingerprint specs pairs))
  | .pair key value =>
    wrapAtom fingerprint specs (.pair (walk fingerprint specs key) (walk fingerprint specs value))
  | .sequence nodes => wrapAtom fingerprint specs (.sequence (walkList fingerprint specs nodes))
  | .variableDeclarator name value expr =>
    wrapAtom fingerprint specs
      (.variableDeclarator name (walk fingerprint specs value) (walk fingerprint specs expr))
  | .predicate node => wrapAtom fingerprint specs (.predicate (walk fingerprint specs node))
  | .chain node => wrapAtom fingerprint specs (.chain (walk fingerprint specs node))
  | .nilNode => wrapAtom fingerprint specs .nilNode
  | .identifier value => wrapAtom fingerprint specs (.identifier value)
  | .integer value => wrapAtom fingerprint specs (.integer value)
  | .float text => wrapAtom fingerprint specs (.float text)
  | .bool value => wrapAtom fingerprint specs (.bool value)
  | .string value => wrapAtom fingerprint specs (.string value)
  | .constant value => wrapAtom fingerprint specs (.constant value)
  | .pointer name => wrapAtom fingerprint specs (.pointer name)
/-- The loops `for i := range nodes { walk(&nodes[i]) }`. -/
def walkList (fingerprint : String → String) (specs : Specs) : List Node → List Node
  | [] => []
  | n :: ns => walk fingerprint specs n :: walkList fingerprint specs ns
/-- The guard `if n == nil || *n == nil { return }`. -/
def walkOpt (fingerprint : String → String) (specs : Specs) : Option Node → Option Node
  | none => none
  | some n => some (walk fingerprint specs n)
end

/-- Go `WrapAtomsWithCond` (the formatter argument is the one `Format`). -/
def WrapAtomsWithCond (root : Node) (fingerprint : String → String) (specs : Specs) : Node :=
  if specs.length = 0 then root else walk fingerprint specs root

/-! ## ruletrace: Fingerprint (SHA-1, truncated to 16 bytes, in hex) -/

/-- Go `[]byte(s)`: the UTF-8 bytes of a string. -/
def stringBytes (s : String) : List UInt8 := (s.data.map String.utf8EncodeChar).flatten

/-- Rotate a 32-bit word left by `n` bits. -/
def rotl32 (x n : Nat) : Nat := ((x <<< n) ||| (x >>> (32 - n))) % 2 ^ 32

/-- Big-endian bytes of the low `8 * k` bits of `x`. -/
def beBytes : Nat → Nat → List Nat
  | 0, _ => []
  | k + 1, x => (x >>> (8 * k)) % 256 :: beBytes k x

/-- Big-endian value of a byte list. -/
def beWord (bs : List Nat) : Nat := bs.foldl (fun acc b => acc * 256 + b) 0

/-- SHA-1 padding: `0x80`, zeros up to 56 mod 64, then the bit length on 8 bytes. -/
def sha1Pad (msg : List Nat) : List Nat :=
  let zeros := (119 - msg.length % 64) % 64
  msg ++ [0x80] ++ List.replicate zeros 0 ++ beBytes 8 (8 * msg.length)

/-- Split into consecutive groups of `k + 1` items, by fuel. -/
def groupsOf (k : Nat) : Nat → List Nat → List (List Nat)
  | 0, _ => []
  | fuel + 1, xs =>
    if xs = [] then [] else xs.take (k + 1) :: groupsOf k fuel (xs.drop (k + 1))

/-- Extend the 16 block words to the 80-word message schedule. -/
def sha1Schedule (w : List Nat) : List Nat :=
  (List.range 64).foldl (fun w i =>
    w ++ [rotl32 (w.getD (i + 13) 0 ^^^ w.getD (i + 8) 0 ^^^ w.getD (i + 2) 0 ^^^ w.getD i 0) 1]) w

/-- The five working words of SHA-1. -/
structure Sha1State where
  a : Nat
  b : Nat
  c : Nat
  d : Nat
  e : Nat

/-- One of the 80 rounds. -/
def sha1Round (s : Sha1State) (t wt : Nat) : Sha1State :=
  let fk : Nat × Nat :=
    if t < 20 then ((s.b &&& s.c) ||| ((s.b ^^^ 0xFFFFFFFF) &&& s.d), 0x5A827999)
    else if t < 40 then (s.b ^^^ s.c ^^^ s.d, 0x6ED9EBA1)
    else if t < 60 then ((s.b &&& s.c) ||| (s.b &&& s.d) ||| (s.c &&& s.d), 0x8F1BBCDC)
    else (s.b ^^^ s.c ^^^ s.d, 0xCA62C1D6)
  { a := (rotl32 s.a 5 + fk.1 + s.e + fk.2 + wt) % 2 ^ 32
    b := s.a
    c := rotl32 s.b 30
    d := s.c
    e := s.d }

/-- Compress one 64-byte block into the chaining state. -/
def sha1Block (h : Sha1State) (block : List Nat) : Sha1State :=
  let w := sha1Schedule ((groupsOf 3 16 block).map beWord)
  let s := (List.range 80).foldl (fun s t => sha1Round s t (w.getD t 0)) h
  { a := (h.a + s.a) % 2 ^ 32
    b := (h.b + s.b) % 2 ^ 32
    c := (h.c + s.c) % 2 ^ 32
    d := (h.d + s.d) % 2 ^ 32
    e := (h.e + s.e) % 2 ^ 32 }

/-- Go `sha1.Sum`: the 20-byte SHA-1 digest. -/
def sha1Sum (msg : List UInt8) : List UInt8 :=
  let padded := sha1Pad (msg.map UInt8.toNat)
  let h := (groupsOf 63 padded.length padded).foldl sha1Block
    { a := 0x67452301, b := 0xEFCDAB89, c := 0x98BADCFE, d := 0x10325476, e := 0xC3D2E1F0 }
  ([h.a, h.b, h.c, h.d, h.e].map (beBytes 4)).flatten.map UInt8.ofNat

/-- Go `hex.EncodeToString`. -/
def hexEncode (b : List UInt8) : String := String.join (b.map hexByte)

/-- Go `Fingerprint`: `hex.EncodeToString(sum[:16])` of `sha1.Sum([]byte(expr))`. -/
def Fingerprint (expr : String) : String := hexEncode ((sha1Sum (stringBytes expr)).take 16)

/-! ## internal/cond: the recorder -/

/-- What the recorder stores per semantic condition (`cond.Recorded`). -/
structure Recorded where
  ID : String
  Value : Bool
  Reason : String
  deriving DecidableEq, Repr

/-- The map `Recorder.seen`, as an association list keyed by ID. -/
abbrev Seen := List (String × Recorded)

/-- The Go map store `m[k] = v`. -/
def mapSet {β : Type} (m : List (String × β)) (k : String) (v : β) : List (String × β) :=
  (k, v) :: m.filter (fun e => e.1 != k)

/-- The Go type assertion `s, _ := v.(string)`. -/
def asString : Value → String
  | .str s => s
  | _ => ""

/-- The function returned by Go `(*Recorder).Func`, applied to `params` with the recorder's
map `seen`: the returned value or error text, and the map afterwards. -/
def RecorderFunc (seen : Seen) (params : List Value) : Except String Value × Seen :=
  if params.length ≠ 4 then
    (.error "Cond expects 4 args (id, reasonTrue, reasonFalse, predicate)", seen)
  else
    let id := asString (params.getD 0 .nil)
    let rt := asString (params.getD 1 .nil)
    let rf := asString (params.getD 2 .nil)
    match params.getD 3 .nil with
    | .bool pred =>
      let reason := if pred then rt else rf
      (.ok (.bool pred), mapSet seen id { ID := id, Value := pred, Reason := reason })
    | _ => (.error "Cond 4th arg must be bool", seen)

/-! ## The expression engine and internal/eval -/

/-- The external expression engine.  `compile env cond src` is `expr.Compile(src, opts...)`
with `opts = [expr.Env(env)]`, plus `expr.Function("Cond", rec.Func())` when `cond` holds: a
program or the text of the compile error.  `node` is `(*vm.Program).Node()`.  `run p env` is
`expr.Run(p, env)`: the value or the text of the run-time error, together with the argument
lists of the calls the run makes to the registered `Cond` function, in order. -/
structure Engine (Env Program : Type) where
  compile : Env → Bool → String → Except String Program
  node : Program → Node
  run : Program → Env → Except String Value × List (List Value)

/-- The state one `trace` call owns: the map `Cache.prog` and the map `Recorder.seen`. -/
structure State (Program : Type) where
  cache : List (String × Program)
  seen : Seen

/-- Go `(*Cache).getOrCompile`. -/
def getOrCompile {Env Program : Type} (eng : Engine Env Program) (env : Env) (enableCond : Bool)
    (cache : List (String × Program)) (src : String) :
    Except String Program × List (String × Program) :=
  match cache.lookup src with
  | some p => (.ok p, cache)
  | none =>
    match eng.compile env enableCond src with
    | .error err => (.error err, cache)
    | .ok p => (.ok p, mapSet cache src p)

/-- Go `eval.EvalString`: `(value, errorString)` and the state afterwards.  The calls the run
makes to `Cond` go through `RecorderFunc`, one after the other. -/
def EvalString {Env Program : Type} (eng : Engine Env Program) (src : String) (env : Env)
    (st : State Program) (enableCond : Bool) : (Value × String) × State Program :=
  match getOrCompile eng env enableCond st.cache src with
  | (.error err, cache) => ((.nil, err), { st with cache := cache })
  | (.ok p, cache) =>
    let seen := ((eng.run p env).2).foldl (fun seen params => (RecorderFunc seen params).2) st.seen
    match (eng.run p env).1 with
    | .error err => ((.nil, err), { cache := cache, seen := seen })
    | .ok v => ((v, ""), { cache := cache, seen := seen })

/-! ## internal/util -/

/-- Go `strings.Index(s, pat)` on character lists: the position of the first occurrence. -/
def stringsIndex (pat : List Char) : List Char → Option Nat
  | [] => if pat = [] then some 0 else none
  | c :: cs =>
    if pat.isPrefixOf (c :: cs) then some 0
    else (stringsIndex pat cs).map (fun i => i + 1)

/-- Go `ExtractFirstStringArg`. -/
def ExtractFirstStringArg (exprStr : String) : String :=
  match stringsIndex "Cond(\"".data exprStr.data with
  | none => ""
  | some p =>
    let start := p + "Cond(\"".length
    match stringsIndex "\"".data (exprStr.data.drop start) with
    | none => ""
    | some e => String.mk ((exprStr.data.drop start).take e)

/-! ## ruletrace: the tracer -/

/-- Go `TraceMode`. -/
inductive TraceMode where
  | TraceNone
  | TraceCoarse
  | TraceAtomic
  | TraceAtomicFailuresOnly
  deriving DecidableEq, Repr

/-- Go `EvalResult`: one trace item. -/
structure EvalResult where
  ID : String := ""
  Fingerprint : String
  Expr : String
  Value : Value := .nil
  Skipped : Bool := false
  Error : String := ""
  Reason : String := ""
  deriving DecidableEq, Repr

/-- Go `TraceResult`. -/
structure TraceResult where
  Source : String
  Chunks : List EvalResult
  Final : Value
  Mode : TraceMode
  deriving DecidableEq, Repr

/-- Go `Tracer`. -/
structure Tracer (Env : Type) where
  env : Env
  mode : TraceMode
  shortCircuit : Bool
  enableCond : Bool

/-- Go `Option`: the three tracer options. -/
inductive TracerOption where
  | WithMode (m : TraceMode)
  | WithShortCircuit (enabled : Bool)
  | WithCond (enabled : Bool)

/-- Go `Option.apply`. -/
def TracerOption.apply {Env : Type} (o : TracerOption) (t : Tracer Env) : Tracer Env :=
  match o with
  | .WithMode m => { t with mode := m }
  | .WithShortCircuit enabled => { t with shortCircuit := enabled }
  | .WithCond enabled => { t with enableCond := enabled }

/-- Go `New`. -/
def New {Env : Type} (env : Env) (opts : List TracerOption) : Tracer Env :=
  opts.foldl (fun t o => o.apply t)
    { env := env, mode := .TraceAtomic, shortCircuit := true, enableCond := true }

/-- Go `(*Tracer).evalNode`. -/
def evalNode {Env Program : Type} (eng : Engine Env Program) (t : Tracer Env) (node : Node)
    (st : State Program) : EvalResult × State Program :=
  let exprStr := Format node
  match EvalString eng exprStr t.env st t.enableCond with
  | ((val, errStr), st1) =>
    ({ Fingerprint := Fingerprint exprStr, Expr := exprStr, Value := val, Error := errStr }, st1)

/-- Go `(*Tracer).markSkipped`. -/
def markSkipped (node : Node) : List EvalResult :=
  let exprStr := Format node
  [{ Fingerprint := Fingerprint exprStr, Expr := exprStr, Value := .nil, Skipped := true }]

/-- Go `lastTrue`. -/
def lastTrue (r : List EvalResult) : Bool :=
  match r.getLast? with
  | none => false
  | some c => c.Error = "" && c.Value = .bool true

/-- Go `lastFalse`. -/
def lastFalse (r : List EvalResult) : Bool :=
  match r.getLast? with
  | none => false
  | some c => c.Error = "" && c.Value = .bool false

/-- Go `lastNotNil`. -/
def lastNotNil (r : List EvalResult) : Bool :=
  match r.getLast? with
  | none => false
  | some c => c.Error = "" && c.Value ≠ .nil

/-- The test of the failures-only filter in `evalChunks`. -/
def isFailure (r : EvalResult) : Bool :=
  r.Skipped || r.Error ≠ "" || r.Value = .bool false || r.Value = .nil

/-- The loop `for _, a := range atoms` of `evalChunks`. -/
def evalAtoms {Env Program : Type} (eng : Engine Env Program) (t : Tracer Env) :
    List Node → State Program → List EvalResult × State Program
  | [], st => ([], st)
  | a :: rest, st =>
    match evalNode eng t a st with
    | (r, st1) =>
      match evalAtoms eng t rest st1 with
      | (out, st2) =>
        if t.mode = .TraceAtomicFailuresOnly then
          if isFailure r then (r :: out, st2) else (out, st2)
        else (r :: out, st2)

/-- The part of `evalChunks` after the short-circuit operators: one chunk in `Coarse` mode or
when no atom is found, else one chunk per atom. -/
def evalUnits {Env Program : Type} (eng : Engine Env Program) (t : Tracer Env) (node : Node)
    (st : State Program) : List EvalResult × State Program :=
  if t.mode = .TraceCoarse then
    match evalNode eng t node st with
    | (r, st1) => ([r], st1)
  else
    let atoms := CollectAtoms node
    if atoms.length = 0 then
      match evalNode eng t node st with
      | (r, st1) => ([r], st1)
    else evalAtoms eng t atoms st

/-- Go `(*Tracer).evalChunks`. -/
def evalChunks {Env Program : Type} (eng : Engine Env Program) (t : Tracer Env) :
    Node → State Program → List EvalResult × State Program
  | .chain node, st =>
    if t.mode = .TraceNone then ([], st) else evalChunks eng t node st
  | .binary operator left right, st =>
    if t.mode = .TraceNone then ([], st)
    else if IsShortCircuitOp operator && (operator = "||" || operator = "or") then
      match evalChunks eng t left st with
      | (l, st1) =>
        if t.shortCircuit && lastTrue l then (l ++ markSkipped right, st1)
        else
          match evalChunks eng t right st1 with
          | (r, st2) => (l ++ r, st2)
    else if IsShortCircuitOp operator && (operator = "&&" || operator = "and") then
      match evalChunks eng t left st with
      | (l, st1) =>
        if t.shortCircuit && lastFalse l then (l ++ markSkipped right, st1)
        else
          match evalChunks eng t right st1 with
          | (r, st2) => (l ++ r, st2)
    else if IsShortCircuitOp operator && operator = "??" then
      match evalChunks eng t left st with
      | (l, st1) =>
        if t.shortCircuit && lastNotNil l then (l ++ markSkipped right, st1)
        else
          match evalChunks eng t right st1 with
          | (r, st2) => (l ++ r, st2)
    else evalUnits eng t (.binary operator left right) st
  | node, st =>
    if t.mode = .TraceNone then ([], st) else evalUnits eng t node st

/-- Step 5 of `trace` for one chunk: a chunk whose text starts with `Cond(` takes the ID and
the reason recorded under its first string argument. -/
def enrich (seen : Seen) (c : EvalResult) : EvalResult :=
  if !("Cond(".data.isPrefixOf c.Expr.data) then c
  else
    let id := ExtractFirstStringArg c.Expr
    if id = "" then c
    else
      match seen.lookup id with
      | none => c
      | some rr => { c with ID := rr.ID, Reason := rr.Reason }

/-- Go `(*Tracer).trace`: the result and the returned error (its text), if any. -/
def trace {Env Program : Type} (eng : Engine Env Program) (t : Tracer Env) (input : String)
    (specs : Specs) (forceFailFast : Bool) : TraceResult × Option String :=
  let st0 : State Program := { cache := [], seen := [] }
  match eng.compile t.env t.enableCond input with
  | .error err =>
    let res : TraceResult :=
      { Source := input
        Chunks := [{ Fingerprint := Fingerprint input, Expr := input, Error := err }]
        Final := .nil
        Mode := t.mode }
    if forceFailFast then (res, some err) else (res, none)
  | .ok tree =>
    let root := eng.node tree
    let root :=
      if t.enableCond && specs.length > 0 then WrapAtomsWithCond root Fingerprint specs else root
    match evalChunks eng t root st0 with
    | (chunks, st1) =>
      let patchedSource := Format root
      match EvalString eng patchedSource t.env st1 t.enableCond with
      | ((final, _), st2) =>
        ({ Source := patchedSource
           Chunks := chunks.map (enrich st2.seen)
           Final := final
           Mode := t.mode }, none)

/-- Go `(*Tracer).Trace`. -/
def Trace {Env Program : Type} (eng : Engine Env Program) (t : Tracer Env) (input : String)
    (specs : Specs) : TraceResult :=
  (trace eng t input specs false).1

/-- Go `(*Tracer).TraceStrict`. -/
def TraceStrict {Env Program : Type} (eng : Engine Env Program) (t : Tracer Env)
    (input : String) (specs : Specs) : TraceResult × Option String :=
  trace eng t input specs true

/-! ## Reference points for the statements -/

/-- The state a `trace` call starts from: `eval.NewCache()` and `cond.NewRecorder()`. -/
def freshState (Program : Type) : State Program := { cache := [], seen := [] }

/-- Direct evaluation of a source text through the engine: `EvalString` on a fresh cache. -/
def evalDirect {Env Program : Type} (eng : Engine Env Program) (t : Tracer Env) (src : String) :
    Value × String :=
  (EvalString eng src t.env (freshState Program) t.enableCond).1

/-- The chunks `evalChunks` produces for a node, started on a fresh cache and recorder. -/
def chunksOf {Env Program : Type} (eng : Engine Env Program) (t : Tracer Env) (n : Node) :
    List EvalResult :=
  (evalChunks eng t n (freshState Program)).1

/-- The chunk `evalNode` produces for a node, started on a fresh cache and recorder. -/
def chunkOf {Env Program : Type} (eng : Engine Env Program) (t : Tracer Env) (n : Node) :
    EvalResult :=
  (evalNode eng t n (freshState Program)).1

/-- Every program the cache holds is what the engine compiles for its key. -/
def CacheOK {Env Program : Type} (eng : Engine Env Program) (t : Tracer Env)
    (cache : List (String × Program)) : Prop :=
  ∀ src p, cache.lookup src = some p → eng.compile t.env t.enableCond src = .ok p

/-- A transparent wrapper node (`*ast.ChainNode`). -/
def isChain : Node → Bool
  | .chain _ => true
  | _ => false

/-- A binary node with a short-circuit operator: the nodes `evalChunks` traces structurally. -/
def isShortCircuitNode : Node → Bool
  | .binary operator _ _ => IsShortCircuitOp operator
  | _ => false

/-- The peek that decides a skip, per operator: `lastTrue` for `||`/`or`, `lastFalse` for
`&&`/`and`, `lastNotNil` for `??`. -/
def skipRule (operator : String) (left : List EvalResult) : Bool :=
  if operator = "||" ∨ operator = "or" then lastTrue left
  else if operator = "&&" ∨ operator = "and" then lastFalse left
  else lastNotNil left

/-! ## Worked examples: a table-driven engine -/

/-- A table-driven engine for worked examples.  A program is its source text; a source
compiles when it has an entry in `trees` (its syntax tree) or in `vals`; running a program
gives its entry in `vals`, a run-time error when it has none, and calls `Cond` never. -/
def tableEngine (trees : List (String × Node)) (vals : List (String × Value)) :
    Engine Unit String where
  compile := fun _ _ src =>
    if (trees.lookup src).isSome || (vals.lookup src).isSome then .ok src
    else .error ("compile error: " ++ src)
  node := fun p => (trees.lookup p).getD .nilNode
  run := fun p _ =>
    (match vals.lookup p with
     | some v => .ok v
     | none => .error ("runtime error: " ++ p), [])

/-- The atom `a == 1`. -/
def atomA : Node := .binary "==" (.identifier "a") (.integer 1)

/-- The atom `b == 2`. -/
def atomB : Node := .binary "==" (.identifier "b") (.integer 2)

/-- The atom `c == 3`. -/
def atomC : Node := .binary "==" (.identifier "c") (.integer 3)

/-- The engine on the environment `{a: 1, b: 5, c: 7}`, for the sources used below. -/
def engABC : Engine Unit String :=
  tableEngine
    [("a == 1 || b == 2", .binary "||" atomA atomB),
     ("a == 1 || b == 2 || c == 3", .binary "||" (.binary "||" atomA atomB) atomC)]
    [("a == 1", .bool true), ("b == 2", .bool false), ("c == 3", .bool false),
     ("a == 1 || b == 2", .bool true), ("a == 1 || b == 2 || c == 3", .bool true)]

/-- The default tracer (`New(env)`): `Atomic` mode, short-circuit and `Cond` enabled. -/
def tracerAtomic : Tracer Unit := New () []

/-- `New(env, WithMode(TraceAtomicFailuresOnly))`. -/
def tracerFailuresOnly : Tracer Unit := New () [.WithMode .TraceAtomicFailuresOnly]

/-- The node of `a == 1 ? false : true`. -/
def ternaryA : Node := .conditional atomA (.bool false) (.bool true)

/-- The engine on the environment `{a: 1, b: 5}`, for the sources used with `ternaryA`. -/
def engTernary : Engine Unit String :=
  tableEngine []
    [("a == 1", .bool true), ("b == 2", .bool false), ("a == 1 ? false : true", .bool false)]

/-- The engine on the environment `{ok: true}`. -/
def engOk : Engine Unit String :=
  tableEngine [("ok", .identifier "ok")] [("ok", .bool true)]

/-- A node with its `*ast.ChainNode` wrappers removed, as `evalChunks`, `collectAtoms` and
`Format` all do before they look at a node. -/
def stripChain : Node → Node
  | .chain n => stripChain n
  | n => n

/-! ## The nodes of a tree -/

mutual
/-- Every node of a tree: the node itself, then the nodes of its children. -/
def subnodes : Node → List Node
  | .binary operator left right =>
    .binary operator left right :: (subnodes left ++ subnodes right)
  | .unary operator node => .unary operator node :: subnodes node
  | .conditional cond exp1 exp2 =>
    .conditional cond exp1 exp2 :: (subnodes cond ++ subnodes exp1 ++ subnodes exp2)
  | .call callee arguments => .call callee arguments :: (subnodes callee ++ subnodesList arguments)
  | .builtin name arguments map =>
    .builtin name arguments map :: (subnodesOpt map ++ subnodesList arguments)
  | .member node property optional method =>
    .member node property optional method :: (subnodes node ++ subnodes property)
  | .slice node sfrom sto =>
    .slice node sfrom sto :: (subnodes node ++ subnodesOpt sfrom ++ subnodesOpt sto)
  | .array nodes => .array nodes :: subnodesList nodes
  | .map pairs => .map pairs :: subnodesList pairs
  | .pair key value => .pair key value :: (subnodes key ++ subnodes value)
  | .sequence nodes => .sequence nodes :: subnodesList nodes
  | .variableDeclarator name value expr =>
    .variableDeclarator name value expr :: (subnodes value ++ subnodes expr)
  | .predicate node => .predicate node :: subnodes node
  | .chain node => .chain node :: subnodes node
  | .nilNode => [.nilNode]
  | .identifier value => [.identifier value]
  | .integer value => [.integer value]
  | .float text => [.float text]
  | .bool value => [.bool value]
  | .string value => [.string value]
  | .constant value => [.constant value]
  | .pointer name => [.pointer name]
/-- The nodes of a list of trees. -/
def subnodesList : List Node → List Node
  | [] => []
  | n :: ns => subnodes n ++ subnodesList ns
/-- The nodes of a child that may be a Go `nil`. -/
def subnodesOpt : Option Node → List Node
  | none => []
  | some n => subnodes n
end

/-- The canonical form of `n` has a fingerprint that is a key of `specs` with a non-empty
ID. -/
def hasSpec (fingerprint : String → String) (specs : Specs) (n : Node) : Bool :=
  match specs.lookup (fingerprint (Format n)) with
  | none => false
  | some spec => spec.ID ≠ ""

/-- No atom among `nodes` has a spec. -/
def NoSpecHit (fingerprint : String → String) (specs : Specs) (nodes : List Node) : Prop :=
  ∀ a ∈ nodes, IsAtomNode a = true → hasSpec fingerprint specs a = false

/-- A specs map with one entry, for `a == 1`, keyed by its fingerprint as in the playground. -/
def specsA : Specs :=
  [(Fingerprint "a == 1", { ID := "c_a", ReasonTrue := "A_IS_ONE", ReasonFalse := "A_NOT_ONE" })]

/-! ## ruletrace: spec validation, and the wrapper node -/

/-- Go `ValidateSpecs`.  The `for range` over the map visits the entries in an unspecified
order; the list gives that order. -/
def ValidateSpecs : Specs → Option String
  | [] => none
  | (fp, s) :: rest =>
    if fp = "" then some "empty fingerprint key in specs"
    else if s.ID = "" then some ("spec for fp=" ++ fp ++ " has empty ID")
    else ValidateSpecs rest

/-- The wrapper node `WrapAtomsWithCond` builds around an atom: `Cond(id, rT, rF, atom)`. -/
def condCall (spec : ConditionSpec) (n : Node) : Node :=
  .call (.identifier "Cond")
    [.string spec.ID, .string spec.ReasonTrue, .string spec.ReasonFalse, n]

/-- The specs map of `cmd/playground/main.go`. -/
def playgroundSpecs : Specs :=
  [(Fingerprint "user.Group in [\"admin\", \"moderator\"]",
      { ID := "c_group", ReasonTrue := "GROUP_ALLOWED", ReasonFalse := "GROUP_NOT_ALLOWED" }),
   (Fingerprint "user.Id == comment.UserId",
      { ID := "c_owner", ReasonTrue := "IS_OWNER", ReasonFalse := "NOT_OWNER" }),
   (Fingerprint "len(tweets) > 1",
      { ID := "c_tweets", ReasonTrue := "HAS_TWEETS", ReasonFalse := "NO_TWEETS" }),
   (Fingerprint "user.Name == \"John Doe\"",
      { ID := "c_name", ReasonTrue := "NAME_MATCH", ReasonFalse := "NAME_MISMATCH" })]

/-! ## Children and slots, identifier-like names, and a grouping example -/

/-- The children of a node, in the order of their slots; a slot holding a Go `nil` has no
entry. -/
def directChildren : Node → List Node
  | .unary _ node => [node]
  | .binary _ left right => [left, right]
  | .conditional cond exp1 exp2 => [cond, exp1, exp2]
  | .call callee arguments => callee :: arguments
  | .builtin _ arguments map => map.toList ++ arguments
  | .member node property _ _ => [node, property]
  | .slice node sfrom sto => node :: (sfrom.toList ++ sto.toList)
  | .array nodes => nodes
  | .map pairs => pairs
  | .pair key value => [key, value]
  | .sequence nodes => nodes
  | .variableDeclarator _ value expr => [value, expr]
  | .predicate node => [node]
  | .chain node => [node]
  | _ => []

/-- The same node with `f` applied to each child, every child staying in its slot. -/
def mapChildren (f : Node → Node) : Node → Node
  | .unary operator node => .unary operator (f node)
  | .binary operator left right => .binary operator (f left) (f right)
  | .conditional cond exp1 exp2 => .conditional (f cond) (f exp1) (f exp2)
  | .call callee arguments => .call (f callee) (arguments.map f)
  | .builtin name arguments map => .builtin name (arguments.map f) (map.map f)
  | .member node property optional method => .member (f node) (f property) optional method
  | .slice node sfrom sto => .slice (f node) (sfrom.map f) (sto.map f)
  | .array nodes => .array (nodes.map f)
  | .map pairs => .map (pairs.map f)
  | .pair key value => .pair (f key) (f value)
  | .sequence nodes => .sequence (nodes.map f)
  | .variableDeclarator name value expr => .variableDeclarator name (f value) (f expr)
  | .predicate node => .predicate (f node)
  | .chain node => .chain (f node)
  | n => n

/-- Identifier-like, in the words of the spec: a letter or underscore followed by letters,
digits or underscores. -/
def isIdentLike (s : String) : Bool :=
  match s.data with
  | [] => false
  | c :: cs => (c.isAlpha || c = '_') && cs.all (fun d => d.isAlphanum || d = '_')

/-- The tree of `(a || b) && c`. -/
def treeOrAnd : Node :=
  .binary "&&" (.binary "||" (.identifier "a") (.identifier "b")) (.identifier "c")

/-- The tree of `a || b && c`, that is `a || (b && c)`. -/
def treeAndOr : Node :=
  .binary "||" (.identifier "a") (.binary "&&" (.identifier "b") (.identifier "c"))

/-- The engine on the environment `{a: true, b: false, c: false}`. -/
def engGrouping : Engine Unit String :=
  tableEngine
    [("(a || b) && c", treeOrAnd), ("a || b && c", treeAndOr)]
    [("a", .bool true), ("b", .bool false), ("c", .bool false),
     ("(a || b) && c", .bool false), ("a || b && c", .bool true)]

/-! ## The single-pass escape, outermost atoms, and unwrapping -/

/-- The single-pass substitution of the spec, for one character: backslash, double quote,
newline, tab and carriage return become a backslash followed by `\`, `"`, `n`, `t`, `r`;
every other character stays. -/
def escapeChar (c : Char) : List Char :=
  if c = '\\' then ['\\', '\\']
  else if c = '"' then ['\\', '"']
  else if c = '\n' then ['\\', 'n']
  else if c = '\t' then ['\\', 't']
  else if c = '\r' then ['\\', 'r']
  else [c]

/-- The single-pass per-character substitution over a whole string. -/
def escapeSinglePass (s : String) : String := String.mk (s.data.flatMap escapeChar)

/-- The character a backslash pair stands for. -/
def unescapeChar (c : Char) : Char :=
  if c = 'n' then '\n' else if c = 't' then '\t' else if c = 'r' then '\r' else c

/-- Reading an escaped text back, by fuel: a backslash takes the next character with it. -/
def unescapeChars : Nat → List Char → List Char
  | 0, _ => []
  | _ + 1, [] => []
  | fuel + 1, [c] => c :: unescapeChars fuel []
  | fuel + 1, c :: d :: rest =>
    if c = '\\' then unescapeChar d :: unescapeChars fuel rest
    else c :: unescapeChars fuel (d :: rest)

/-- An atom in the sense of the classifier: a comparison, membership, pattern or string test
(`IsAtomNode`), or a call to `Cond` (`IsCondCall`). -/
def isAtomic (n : Node) : Bool := IsAtomNode n || IsCondCall n

mutual
/-- The outermost atoms of a tree, in the words of the spec: walking the tree left to right,
a node is listed when it is an atom and no node above it is one; `inside` tells that a node
above is an atom. -/
def outermostAtoms (inside : Bool) : Node → List Node
  | .binary operator left right =>
    (if !inside && isAtomic (.binary operator left right) then [.binary operator left right]
     else []) ++
      (outermostAtoms (inside || isAtomic (.binary operator left right)) left ++
        outermostAtoms (inside || isAtomic (.binary operator left right)) right)
  | .call callee arguments =>
    (if !inside && isAtomic (.call callee arguments) then [.call callee arguments] else []) ++
      (outermostAtoms (inside || isAtomic (.call callee arguments)) callee ++
        outermostAtomsList (inside || isAtomic (.call callee arguments)) arguments)
  | .unary _ node => outermostAtoms inside node
  | .conditional cond exp1 exp2 =>
    outermostAtoms inside cond ++ outermostAtoms inside exp1 ++ outermostAtoms inside exp2
  | .builtin _ arguments map =>
    outermostAtomsOpt inside map ++ outermostAtomsList inside arguments
  | .member node property _ _ => outermostAtoms inside node ++ outermostAtoms inside property
  | .slice node sfrom sto =>
    outermostAtoms inside node ++ outermostAtomsOpt inside sfrom ++ outermostAtomsOpt inside sto
  | .array nodes => outermostAtomsList inside nodes
  | .map pairs => outermostAtomsList inside pairs
  | .pair key value => outermostAtoms inside key ++ outermostAtoms inside value
  | .sequence nodes => outermostAtomsList inside nodes
  | .variableDeclarator _ value expr => outermostAtoms inside value ++ outermostAtoms inside expr
  | .predicate node => outermostAtoms inside node
  | .chain node => outermostAtoms inside node
  | .nilNode => []
  | .identifier _ => []
  | .integer _ => []
  | .float _ => []
  | .bool _ => []
  | .string _ => []
  | .constant _ => []
  | .pointer _ => []
/-- The outermost atoms of a list of trees. -/
def outermostAtomsList (inside : Bool) : List Node → List Node
  | [] => []
  | n :: ns => outermostAtoms inside n ++ outermostAtomsList inside ns
/-- The outermost atoms of a child that may be a Go `nil`. -/
def outermostAtomsOpt (inside : Bool) : Option Node → List Node
  | none => []
  | some n => outermostAtoms inside n
end

mutual
/-- Every call `Cond(_, _, _, x)` of a tree replaced by its fourth argument `x`, from the
leaves up. -/
def unwrapCond : Node → Node
  | .call callee arguments =>
    if IsCondCall (.call callee arguments) then
      match unwrapCondList arguments with
      | [_, _, _, x] => x
      | args => .call (unwrapCond callee) args
    else .call (unwrapCond callee) (unwrapCondList arguments)
  | .binary operator left right => .binary operator (unwrapCond left) (unwrapCond right)
  | .unary operator node => .unary operator (unwrapCond node)
  | .conditional cond exp1 exp2 =>
    .conditional (unwrapCond cond) (unwrapCond exp1) (unwrapCond exp2)
  | .builtin name arguments map => .builtin name (unwrapCondList arguments) (unwrapCondOpt map)
  | .member node property optional method =>
    .member (unwrapCond node) (unwrapCond property) optional method
  | .slice node sfrom sto => .slice (unwrapCond node) (unwrapCondOpt sfrom) (unwrapCondOpt sto)
  | .array nodes => .array (unwrapCondList nodes)
  | .map pairs => .map (unwrapCondList pairs)
  | .pair key value => .pair (unwrapCond key) (unwrapCond value)
  | .sequence nodes => .sequence (unwrapCondList nodes)
  | .variableDeclarator name value expr =>
    .variableDeclarator name (unwrapCond value) (unwrapCond expr)
  | .predicate node => .predicate (unwrapCond node)
  | .chain node => .chain (unwrapCond node)
  | .nilNode => .nilNode
  | .identifier value => .identifier value
  | .integer value => .integer value
  | .float text => .float text
  | .bool value => .bool value
  | .string value => .string value
  | .constant value => .constant value
  | .pointer name => .pointer name
/-- The same over a list of trees. -/
def unwrapCondList : List Node → List Node
  | [] => []
  | n :: ns => unwrapCond n :: unwrapCondList ns
/-- The same over a child that may be a Go `nil`. -/
def unwrapCondOpt : Option Node → Option Node
  | none => none
  | some n => some (unwrapCond n)
end

/-- Every double quote of the text has a backslash right before it. -/
def QuotesEscaped (l : List Char) : Prop :=
  ∀ i, l[i]? = some '"' → 0 < i ∧ l[i - 1]? = some '\\'

/-- The comparison `a == 1 == true`, that is `(a == 1) == true`: an atom holding an atom. -/
def atomNested : Node := .binary "==" atomA (.bool true)

/-- A specs map for `atomNested` and for the atom it holds, each keyed by the fingerprint of
its canonical form. -/
def specsNested : Specs :=
  [(Fingerprint "a == 1", { ID := "c_a", ReasonTrue := "A_IS_ONE", ReasonFalse := "A_NOT_ONE" }),
   (Fingerprint "a == 1 == true",
      { ID := "c_outer", ReasonTrue := "OUTER_TRUE", ReasonFalse := "OUTER_FALSE" })]

/-! ## Positions in a tree, and where the patcher moves them -/

/-- The node at a position of a tree: the position is the list of child slots to follow from
the root, slots counted as in `directChildren`. -/
def nodeAt : Node → List Nat → Option Node
  | n, [] => some n
  | n, i :: path =>
    match (directChildren n)[i]? with
    | none => none
    | some c => nodeAt c path

/-- Whether the patcher puts a `Cond` call around the node: the node is an atom and what `walk`
makes of it is a `Cond` call. -/
def wrapsNode (fingerprint : String → String) (specs : Specs) (n : Node) : Bool :=
  IsAtomNode n && IsCondCall (walk fingerprint specs n)

/-- Where a position of a tree is found in the patched tree: the same slots, with one more step
into the fourth argument of the `Cond` call (slot 4 of the call node, whose slot 0 is the
callee) below every node on the way that the patcher wrapped. -/
def patchedPath (fingerprint : String → String) (specs : Specs) : Node → List Nat → List Nat
  | _, [] => []
  | n, i :: path =>
    match (directChildren n)[i]? with
    | none => []
    | some c =>
      (if wrapsNode fingerprint specs n then [4] else []) ++
        i :: patchedPath fingerprint specs c path

/-- The tree of `not (x || a == 1)`. -/
def treeNotOrA : Node :=
  .unary "not" (.binary "||" (.identifier "x") atomA)

/-- The tree of `a == 1 == b`, an atom over the atom `a == 1`. -/
def treeNestedA : Node :=
  .binary "==" atomA (.identifier "b")

/-- A specs map over the identity fingerprint: one entry for `a == 1`, one for the outer atom
of `treeNestedA` as it reads once its left operand is wrapped. -/
def specsNestedA : Specs :=
  [("a == 1", { ID := "c_a", ReasonTrue := "A_IS_ONE", ReasonFalse := "A_NOT_ONE" }),
   ("Cond(\"c_a\", \"A_IS_ONE\", \"A_NOT_ONE\", a == 1) == b",
      { ID := "c_out", ReasonTrue := "OUT_TRUE", ReasonFalse := "OUT_FALSE" })]

/-! ## The cache is transparent -/

theorem lookup_filter_ne {β : Type} (m : List (String × β)) (k k' : String) (h : k' ≠ k) :
    (m.filter (fun e => e.1 != k)).lookup k' = m.lookup k' := by
  induction m with
  | nil => rfl
  | cons e m ih =>
    obtain ⟨a, b⟩ := e
    by_cases ha : a = k
    · subst ha
      have h1 : (k' == a) = false := by simpa using h
      simp [List.filter, List.lookup, h1, ih]
    · have h2 : (a != k) = true := by simpa using ha
      simp only [List.filter, h2, List.lookup, ih]

theorem lookup_mapSet {β : Type} (m : List (String × β)) (k k' : String) (v : β) :
    (mapSet m k v).lookup k' = if k' = k then some v else m.lookup k' := by
  unfold mapSet
  by_cases h : k' = k
  · subst h
    simp [List.lookup]
  · have h1 : (k' == k) = false := by simpa using h
    simp [List.lookup, h1, h, lookup_filter_ne m k k' h]

theorem cacheOK_nil {Env Program : Type} (eng : Engine Env Program) (t : Tracer Env) :
    CacheOK eng t ([] : List (String × Program)) := by
  intro src p h
  simp [List.lookup] at h

theorem getOrCompile_fst {Env Program : Type} (eng : Engine Env Program) (t : Tracer Env)
    (cache : List (String × Program)) (src : String) (h : CacheOK eng t cache) :
    (getOrCompile eng t.env t.enableCond cache src).1 = eng.compile t.env t.enableCond src := by
  unfold getOrCompile
  cases hl : cache.lookup src with
  | some p => simp [h src p hl]
  | none =>
    cases hc : eng.compile t.env t.enableCond src <;> simp

theorem getOrCompile_cacheOK {Env Program : Type} (eng : Engine Env Program) (t : Tracer Env)
    (cache : List (String × Program)) (src : String) (h : CacheOK eng t cache) :
    CacheOK eng t (getOrCompile eng t.env t.enableCond cache src).2 := by
  unfold getOrCompile
  cases hl : cache.lookup src with
  | some p => simpa using h
  | none =>
    cases hc : eng.compile t.env t.enableCond src with
    | error e => simpa using h
    | ok p =>
      intro src' q hq
      simp only [lookup_mapSet] at hq
      by_cases hs : src' = src
      · subst hs
        simp at hq
        subst hq
        exact hc
      · simp [hs] at hq
        exact h src' q hq

/-- What `EvalString` returns, read off the engine alone. -/
theorem EvalString_fst {Env Program : Type} (eng : Engine Env Program) (t : Tracer Env)
    (src : String) (st : State Program) (h : CacheOK eng t st.cache) :
    (EvalString eng src t.env st t.enableCond).1 =
      match eng.compile t.env t.enableCond src with
      | .error err => (.nil, err)
      | .ok p =>
        match (eng.run p t.env).1 with
        | .error err => (.nil, err)
        | .ok v => (v, "") := by
  have h1 := getOrCompile_fst eng t st.cache src h
  unfold EvalString
  rcases hg : getOrCompile eng t.env t.enableCond st.cache src with ⟨r, c⟩
  rw [hg] at h1
  simp only at h1
  subst h1
  cases hc : eng.compile t.env t.enableCond src with
  | error e => simp
  | ok p =>
    cases hr : (eng.run p t.env).1 <;> simp [hr]

theorem EvalString_cacheOK {Env Program : Type} (eng : Engine Env Program) (t : Tracer Env)
    (src : String) (st : State Program) (h : CacheOK eng t st.cache) :
    CacheOK eng t (EvalString eng src t.env st t.enableCond).2.cache := by
  have h2 := getOrCompile_cacheOK eng t st.cache src h
  unfold EvalString
  rcases hg : getOrCompile eng t.env t.enableCond st.cache src with ⟨r, c⟩
  rw [hg] at h2
  cases r with
  | error e => simpa using h2
  | ok p =>
    cases hr : (eng.run p t.env).1 <;> simpa [hr] using h2

/-- A valid cache does not change what `EvalString` returns. -/
theorem EvalString_fresh {Env Program : Type} (eng : Engine Env Program) (t : Tracer Env)
    (src : String) (st : State Program) (h : CacheOK eng t st.cache) :
    (EvalString eng src t.env st t.enableCond).1 = evalDirect eng t src := by
  unfold evalDirect
  rw [EvalString_fst eng t src st h,
    EvalString_fst eng t src (freshState Program) (cacheOK_nil eng t)]

theorem evalNode_fst {Env Program : Type} (eng : Engine Env Program) (t : Tracer Env)
    (n : Node) (st : State Program) :
    (evalNode eng t n st).1 =
      { Fingerprint := Fingerprint (Format n), Expr := Format n,
        Value := (EvalString eng (Format n) t.env st t.enableCond).1.1,
        Error := (EvalString eng (Format n) t.env st t.enableCond).1.2 } := by
  simp only [evalNode]

theorem evalNode_snd {Env Program : Type} (eng : Engine Env Program) (t : Tracer Env)
    (n : Node) (st : State Program) :
    (evalNode eng t n st).2 = (EvalString eng (Format n) t.env st t.enableCond).2 := by
  simp only [evalNode]

/-- The chunk of one evaluated node: its canonical text, the fingerprint of that text, and
the value and error text of its direct evaluation. -/
theorem chunkOf_eq {Env Program : Type} (eng : Engine Env Program) (t : Tracer Env) (n : Node) :
    chunkOf eng t n =
      { Fingerprint := Fingerprint (Format n), Expr := Format n,
        Value := (evalDirect eng t (Format n)).1, Error := (evalDirect eng t (Format n)).2 } := by
  unfold chunkOf
  rw [evalNode_fst]
  rfl

theorem evalNode_fresh {Env Program : Type} (eng : Engine Env Program) (t : Tracer Env)
    (n : Node) (st : State Program) (h : CacheOK eng t st.cache) :
    (evalNode eng t n st).1 = chunkOf eng t n := by
  rw [chunkOf_eq, evalNode_fst, EvalString_fresh eng t (Format n) st h]

theorem evalNode_cacheOK {Env Program : Type} (eng : Engine Env Program) (t : Tracer Env)
    (n : Node) (st : State Program) (h : CacheOK eng t st.cache) :
    CacheOK eng t (evalNode eng t n st).2.cache := by
  rw [evalNode_snd]
  exact EvalString_cacheOK eng t (Format n) st h

/-- The atoms loop on a valid cache: one chunk per atom, filtered in failures-only mode. -/
theorem evalAtoms_fresh {Env Program : Type} (eng : Engine Env Program) (t : Tracer Env)
    (atoms : List Node) :
    ∀ st : State Program, CacheOK eng t st.cache →
      (evalAtoms eng t atoms st).1 =
        (if t.mode = .TraceAtomicFailuresOnly then (atoms.map (chunkOf eng t)).filter isFailure
         else atoms.map (chunkOf eng t)) ∧
      CacheOK eng t (evalAtoms eng t atoms st).2.cache := by
  induction atoms with
  | nil =>
    intro st h
    refine ⟨?_, h⟩
    simp [evalAtoms]
  | cons a rest ih =>
    intro st h
    have h1 := evalNode_fresh eng t a st h
    have h2 := evalNode_cacheOK eng t a st h
    rcases hn : evalNode eng t a st with ⟨r, st1⟩
    rw [hn] at h1 h2
    simp only at h1 h2
    have h3 := ih st1 h2
    rcases ha : evalAtoms eng t rest st1 with ⟨out, st2⟩
    rw [ha] at h3
    simp only at h3
    obtain ⟨h4, h5⟩ := h3
    subst h1
    simp only [evalAtoms, hn, ha]
    by_cases hm : t.mode = .TraceAtomicFailuresOnly
    · simp only [hm, if_true] at h4 ⊢
      by_cases hf : isFailure (chunkOf eng t a) = true
      · simp [hf, h4, h5, List.filter]
      · simp [hf, h4, h5, List.filter]
    · simp only [hm, if_false] at h4 ⊢
      simp [h4, h5]

theorem evalUnits_fresh {Env Program : Type} (eng : Engine Env Program) (t : Tracer Env)
    (n : Node) (st : State Program) (h : CacheOK eng t st.cache) :
    (evalUnits eng t n st).1 = (evalUnits eng t n (freshState Program)).1 ∧
      CacheOK eng t (evalUnits eng t n st).2.cache := by
  have hn := evalNode_fresh eng t n st h
  have hn0 := evalNode_fresh eng t n (freshState Program) (cacheOK_nil eng t)
  have hc := evalNode_cacheOK eng t n st h
  have ha := evalAtoms_fresh eng t (CollectAtoms n) st h
  have ha0 := evalAtoms_fresh eng t (CollectAtoms n) (freshState Program) (cacheOK_nil eng t)
  unfold evalUnits
  by_cases hm : t.mode = .TraceCoarse
  · simp only [hm, if_true]
    exact ⟨by rw [hn, hn0], hc⟩
  · simp only [hm, if_false]
    by_cases hl : (CollectAtoms n).length = 0
    · simp only [hl, if_true]
      exact ⟨by rw [hn, hn0], hc⟩
    · simp only [hl, if_false]
      exact ⟨by rw [ha.1, ha0.1], ha.2⟩

/-! ## Unfolding `evalChunks` -/

theorem evalChunks_chain {Env Program : Type} (eng : Engine Env Program) (t : Tracer Env)
    (n : Node) (st : State Program) :
    evalChunks eng t (.chain n) st =
      if t.mode = .TraceNone then ([], st) else evalChunks eng t n st := by
  simp only [evalChunks]

theorem evalChunks_none {Env Program : Type} (eng : Engine Env Program) (t : Tracer Env)
    (n : Node) (st : State Program) (hm : t.mode = .TraceNone) :
    evalChunks eng t n st = ([], st) := by
  cases n <;> simp [evalChunks, hm]

theorem evalChunks_units {Env Program : Type} (eng : Engine Env Program) (t : Tracer Env)
    (n : Node) (st : State Program) (hc : isChain n = false)
    (hs : isShortCircuitNode n = false) :
    evalChunks eng t n st =
      if t.mode = .TraceNone then ([], st) else evalUnits eng t n st := by
  cases n <;> simp only [evalChunks]
  · simp only [isShortCircuitNode] at hs
    simp [hs]
  · simp [isChain] at hc

theorem evalChunks_shortCircuit {Env Program : Type} (eng : Engine Env Program)
    (t : Tracer Env) (operator : String) (left right : Node) (st : State Program)
    (hm : t.mode ≠ .TraceNone) (ho : IsShortCircuitOp operator = true) :
    evalChunks eng t (.binary operator left right) st =
      if t.shortCircuit && skipRule operator (evalChunks eng t left st).1 then
        ((evalChunks eng t left st).1 ++ markSkipped right, (evalChunks eng t left st).2)
      else
        ((evalChunks eng t left st).1 ++
            (evalChunks eng t right (evalChunks eng t left st).2).1,
          (evalChunks eng t right (evalChunks eng t left st).2).2) := by
  rcases hl : evalChunks eng t left st with ⟨l, st1⟩
  rcases hr : evalChunks eng t right st1 with ⟨r, st2⟩
  simp only [IsShortCircuitOp, Bool.or_eq_true, decide_eq_true_eq] at ho
  rcases ho with (((rfl | rfl) | rfl) | rfl) | rfl <;>
    simp [evalChunks, hm, hl, hr, IsShortCircuitOp, skipRule]

/-! ## Chunk production does not depend on the cache -/

theorem evalChunks_units_fresh {Env Program : Type} (eng : Engine Env Program) (t : Tracer Env)
    (n : Node) (st : State Program) (h : CacheOK eng t st.cache) (hc : isChain n = false)
    (hs : isShortCircuitNode n = false) :
    (evalChunks eng t n st).1 = chunksOf eng t n ∧
      CacheOK eng t (evalChunks eng t n st).2.cache := by
  unfold chunksOf
  rw [evalChunks_units eng t n st hc hs, evalChunks_units eng t n _ hc hs]
  by_cases hm : t.mode = .TraceNone
  · simp only [hm, if_true]
    exact ⟨trivial, h⟩
  · simp only [hm, if_false]
    exact evalUnits_fresh eng t n st h

/-- Induction along the recursion of `evalChunks`: through wrapper nodes, into both sides of
a short-circuit operator, and stopping at every other node. -/
theorem traceInduction {P : Node → Prop} (hchain : ∀ n, P n → P (.chain n))
    (hbin : ∀ operator left right, IsShortCircuitOp operator = true → P left → P right →
      P (.binary operator left right))
    (hunits : ∀ n, isChain n = false → isShortCircuitNode n = false → P n) : ∀ n, P n
  | .chain n => hchain n (traceInduction hchain hbin hunits n)
  | .binary operator left right =>
    if ho : IsShortCircuitOp operator = true then
      hbin operator left right ho (traceInduction hchain hbin hunits left)
        (traceInduction hchain hbin hunits right)
    else hunits _ rfl (by simpa [isShortCircuitNode] using ho)
  | .nilNode => hunits _ rfl rfl
  | .identifier _ => hunits _ rfl rfl
  | .integer _ => hunits _ rfl rfl
  | .float _ => hunits _ rfl rfl
  | .bool _ => hunits _ rfl rfl
  | .string _ => hunits _ rfl rfl
  | .constant _ => hunits _ rfl rfl
  | .unary _ _ => hunits _ rfl rfl
  | .member _ _ _ _ => hunits _ rfl rfl
  | .slice _ _ _ => hunits _ rfl rfl
  | .call _ _ => hunits _ rfl rfl
  | .builtin _ _ _ => hunits _ rfl rfl
  | .predicate _ => hunits _ rfl rfl
  | .pointer _ => hunits _ rfl rfl
  | .conditional _ _ _ => hunits _ rfl rfl
  | .variableDeclarator _ _ _ => hunits _ rfl rfl
  | .sequence _ => hunits _ rfl rfl
  | .array _ => hunits _ rfl rfl
  | .map _ => hunits _ rfl rfl
  | .pair _ _ => hunits _ rfl rfl

theorem evalChunks_fresh {Env Program : Type} (eng : Engine Env Program) (t : Tracer Env)
    (n : Node) :
    ∀ st : State Program, CacheOK eng t st.cache →
      (evalChunks eng t n st).1 = chunksOf eng t n ∧
        CacheOK eng t (evalChunks eng t n st).2.cache := by
  induction n using traceInduction with
  | hchain n ih =>
    intro st h
    have ih := ih st h
    unfold chunksOf at ih ⊢
    rw [evalChunks_chain, evalChunks_chain]
    by_cases hm : t.mode = .TraceNone
    · simp only [hm, if_true]
      exact ⟨trivial, h⟩
    · simp only [hm, if_false]
      exact ih
  | hbin operator left right ho ihl ihr =>
    intro st h
    by_cases hm : t.mode = .TraceNone
    · unfold chunksOf
      rw [evalChunks_none eng t _ st hm, evalChunks_none eng t _ _ hm]
      exact ⟨rfl, h⟩
    · have il := ihl st h
      have ir := ihr (evalChunks eng t left st).2 il.2
      have il0 := ihl (freshState Program) (cacheOK_nil eng t)
      have ir0 := ihr (evalChunks eng t left (freshState Program)).2 il0.2
      unfold chunksOf
      rw [evalChunks_shortCircuit eng t operator left right st hm ho,
        evalChunks_shortCircuit eng t operator left right _ hm ho, il.1, il0.1]
      cases hk : (t.shortCircuit && skipRule operator (chunksOf eng t left))
      · simp only [Bool.false_eq_true, if_false]
        exact ⟨by rw [ir.1, ir0.1], ir.2⟩
      · simp only [if_true]
        exact ⟨trivial, il.2⟩
  | hunits n hc hs =>
    intro st h
    exact evalChunks_units_fresh eng t n st h hc hs

/-- The chunks of a wrapper node are those of the node it wraps. -/
theorem chunksOf_chain {Env Program : Type} (eng : Engine Env Program) (t : Tracer Env)
    (n : Node) : chunksOf eng t (.chain n) = chunksOf eng t n := by
  unfold chunksOf
  rw [evalChunks_chain]
  by_cases hm : t.mode = .TraceNone
  · simp [hm, evalChunks_none eng t n _ hm]
  · simp [hm]

/-- The chunks of a short-circuit operator: those of the left side, then either the one
skipped chunk of the right side or the chunks of the right side. -/
theorem chunksOf_shortCircuit {Env Program : Type} (eng : Engine Env Program) (t : Tracer Env)
    (operator : String) (left right : Node) (hm : t.mode ≠ .TraceNone)
    (ho : IsShortCircuitOp operator = true) :
    chunksOf eng t (.binary operator left right) =
      chunksOf eng t left ++
        (if t.shortCircuit && skipRule operator (chunksOf eng t left) then markSkipped right
         else chunksOf eng t right) := by
  have il0 := evalChunks_fresh eng t left (freshState Program) (cacheOK_nil eng t)
  have ir0 := evalChunks_fresh eng t right (evalChunks eng t left (freshState Program)).2 il0.2
  unfold chunksOf at il0 ⊢
  rw [evalChunks_shortCircuit eng t operator left right _ hm ho]
  cases hk :
      (t.shortCircuit && skipRule operator (evalChunks eng t left (freshState Program)).1)
  · simp only [Bool.false_eq_true, if_false]
    rw [ir0.1]
    rfl
  · simp only [if_true]

/-- The chunks of any other node: one chunk in `Coarse` mode or when no atom is found, else
one chunk per atom, filtered in failures-only mode. -/
theorem chunksOf_units {Env Program : Type} (eng : Engine Env Program) (t : Tracer Env)
    (n : Node) (hm : t.mode ≠ .TraceNone) (hc : isChain n = false)
    (hs : isShortCircuitNode n = false) :
    chunksOf eng t n =
      if t.mode = .TraceCoarse ∨ (CollectAtoms n).length = 0 then [chunkOf eng t n]
      else if t.mode = .TraceAtomicFailuresOnly then
        ((CollectAtoms n).map (chunkOf eng t)).filter isFailure
      else (CollectAtoms n).map (chunkOf eng t) := by
  unfold chunksOf
  rw [evalChunks_units eng t n _ hc hs]
  simp only [hm, if_false]
  have ha0 := evalAtoms_fresh eng t (CollectAtoms n) (freshState Program) (cacheOK_nil eng t)
  unfold evalUnits
  by_cases h1 : t.mode = .TraceCoarse
  · simp only [h1, true_or, if_true]
    rfl
  · by_cases h2 : (CollectAtoms n).length = 0
    · simp only [h1, h2, or_true, if_true, if_false]
      rfl
    · simp only [h1, h2, or_self, if_false]
      exact ha0.1

/-! ## The trace engine: final value and errors -/

theorem evalDirect_eq {Env Program : Type} (eng : Engine Env Program) (t : Tracer Env)
    (src : String) :
    evalDirect eng t src =
      match eng.compile t.env t.enableCond src with
      | .error err => (.nil, err)
      | .ok p =>
        match (eng.run p t.env).1 with
        | .error err => (.nil, err)
        | .ok v => (v, "") := by
  unfold evalDirect
  exact EvalString_fst eng t src (freshState Program) (cacheOK_nil eng t)

/-- What `trace` returns when the input compiles. -/
theorem trace_ok {Env Program : Type} (eng : Engine Env Program) (t : Tracer Env)
    (input : String) (specs : Specs) (forceFailFast : Bool) (tree : Program)
    (h : eng.compile t.env t.enableCond input = .ok tree) :
    (trace eng t input specs forceFailFast).2 = none ∧
    (trace eng t input specs forceFailFast).1.Source =
      Format (if t.enableCond && specs.length > 0 then
        WrapAtomsWithCond (eng.node tree) Fingerprint specs else eng.node tree) ∧
    (trace eng t input specs forceFailFast).1.Final =
      (evalDirect eng t (trace eng t input specs forceFailFast).1.Source).1 ∧
    (trace eng t input specs forceFailFast).1 = (trace eng t input specs false).1 := by
  generalize hroot : (if t.enableCond && specs.length > 0 then
    WrapAtomsWithCond (eng.node tree) Fingerprint specs else eng.node tree) = root
  have hc := (evalChunks_fresh eng t root (freshState Program) (cacheOK_nil eng t)).2
  have he := EvalString_fresh eng t (Format root) (evalChunks eng t root (freshState Program)).2 hc
  rcases hch : evalChunks eng t root (freshState Program) with ⟨chunks, st1⟩
  rw [hch] at he
  rcases hev : EvalString eng (Format root) t.env st1 t.enableCond with ⟨⟨final, e⟩, st2⟩
  rw [hev] at he
  have hch2 : evalChunks eng t root { cache := [], seen := [] } = (chunks, st1) := hch
  simp only [trace, h, hroot, hch2, hev, ← he, and_self]

/-- What `trace` returns when the input does not compile. -/
theorem trace_error {Env Program : Type} (eng : Engine Env Program) (t : Tracer Env)
    (input : String) (specs : Specs) (forceFailFast : Bool) (err : String)
    (h : eng.compile t.env t.enableCond input = .error err) :
    trace eng t input specs forceFailFast =
      ({ Source := input
         Chunks := [{ Fingerprint := Fingerprint input, Expr := input, Error := err }]
         Final := .nil
         Mode := t.mode }, if forceFailFast then some err else none) := by
  cases forceFailFast <;> simp [trace, h]

/-- C1. For every engine, tracer (environment, mode, options), source and specs map, the
`Final` of the result of `Trace` is the value of the direct evaluation of the result's `Source`
through the engine (`nil` when that evaluation fails); `Source` is the input when it does not
compile and `Format` of the (possibly patched) root when it does. -/
theorem trace_final_eq_eval_of_source {Env Program : Type} (eng : Engine Env Program)
    (t : Tracer Env) (input : String) (specs : Specs) :
    (Trace eng t input specs).Final = (evalDirect eng t (Trace eng t input specs).Source).1 ∧
    (Trace eng t input specs).Source =
      (match eng.compile t.env t.enableCond input with
       | .error _ => input
       | .ok tree =>
         Format (if t.enableCond && specs.length > 0 then
           WrapAtomsWithCond (eng.node tree) Fingerprint specs else eng.node tree)) := by
  unfold Trace
  cases h : eng.compile t.env t.enableCond input with
  | error err =>
    rw [trace_error eng t input specs false err h]
    simp [evalDirect_eq, h]
  | ok tree =>
    have h1 := trace_ok eng t input specs false tree h
    exact ⟨h1.2.2.1, h1.2.1⟩

/-! ## Short-circuit operators -/

theorem chunkOf_not_skipped {Env Program : Type} (eng : Engine Env Program) (t : Tracer Env)
    (n : Node) : (chunkOf eng t n).Skipped = false := by
  rw [chunkOf_eq]

theorem chunksOf_none {Env Program : Type} (eng : Engine Env Program) (t : Tracer Env)
    (n : Node) (hm : t.mode = .TraceNone) : chunksOf eng t n = [] := by
  unfold chunksOf
  rw [evalChunks_none eng t n _ hm]

theorem chunksOf_units_not_skipped {Env Program : Type} (eng : Engine Env Program)
    (t : Tracer Env) (n : Node) (hc : isChain n = false) (hs : isShortCircuitNode n = false)
    (c : EvalResult) (hmem : c ∈ chunksOf eng t n) : c.Skipped = false := by
  by_cases hm : t.mode = .TraceNone
  · rw [chunksOf_none eng t n hm] at hmem
    simp at hmem
  · rw [chunksOf_units eng t n hm hc hs] at hmem
    split at hmem
    · simp only [List.mem_singleton] at hmem
      rw [hmem]
      exact chunkOf_not_skipped eng t n
    · split at hmem
      · obtain ⟨a, -, rfl⟩ := List.mem_map.mp (List.mem_filter.mp hmem).1
        exact chunkOf_not_skipped eng t a
      · obtain ⟨a, -, rfl⟩ := List.mem_map.mp hmem
        exact chunkOf_not_skipped eng t a

theorem Format_binary_length (operator : String) (left right : Node) :
    (Format (.binary operator left right)).length =
      (Format left).length + operator.length + 2 + (Format right).length := by
  simp only [Format, String.length_append]
  have : (" " : String).length = 1 := rfl
  omega

theorem units_skipped_absurd {Env Program : Type} (eng : Engine Env Program)
    (t : Tracer Env) (n : Node) (hc : isChain n = false) (hs : isShortCircuitNode n = false)
    (c : EvalResult) (hmem : c ∈ chunksOf eng t n) (hsk : c.Skipped = true) :
    c.Expr.length < (Format n).length := by
  rw [chunksOf_units_not_skipped eng t n hc hs c hmem] at hsk
  cases hsk

/-- A skipped chunk always names a proper part of the node it was produced for. -/
theorem skipped_expr_shorter {Env Program : Type} (eng : Engine Env Program) (t : Tracer Env)
    (n : Node) :
    ∀ c : EvalResult, c ∈ chunksOf eng t n → c.Skipped = true →
      c.Expr.length < (Format n).length := by
  induction n using traceInduction with
  | hchain n ih =>
    intro c hmem hsk
    rw [chunksOf_chain] at hmem
    simpa only [Format] using ih c hmem hsk
  | hbin operator left right ho ihl ihr =>
    intro c hmem hsk
    by_cases hm : t.mode = .TraceNone
    · rw [chunksOf_none eng t _ hm] at hmem
      simp at hmem
    · rw [chunksOf_shortCircuit eng t operator left right hm ho] at hmem
      rw [Format_binary_length]
      rcases List.mem_append.mp hmem with hl | hr
      · have := ihl c hl hsk
        omega
      · split at hr
        · simp only [markSkipped, List.mem_singleton] at hr
          rw [hr]
          simp only
          omega
        · have := ihr c hr hsk
          omega
  | hunits n hc hs =>
    intro c hmem hsk
    exact units_skipped_absurd eng t n hc hs c hmem hsk

/-- The peek of `evalChunks`, spelled out on the last chunk of the left side. -/
theorem skipRule_iff (operator : String) (left : List EvalResult)
    (ho : operator = "||" ∨ operator = "or" ∨ operator = "&&" ∨ operator = "and" ∨
      operator = "??") :
    skipRule operator left = true ↔
      ∃ c, left.getLast? = some c ∧ c.Error = "" ∧
        (((operator = "||" ∨ operator = "or") ∧ c.Value = .bool true) ∨
         ((operator = "&&" ∨ operator = "and") ∧ c.Value = .bool false) ∨
         (operator = "??" ∧ c.Value ≠ .nil)) := by
  cases hl : left.getLast? with
  | none =>
    rcases ho with rfl | rfl | rfl | rfl | rfl <;>
      simp [skipRule, lastTrue, lastFalse, lastNotNil, hl]
  | some c =>
    rcases ho with rfl | rfl | rfl | rfl | rfl <;>
      simp [skipRule, lastTrue, lastFalse, lastNotNil, hl]

/-- C2. For a binary node `L op R` with a short-circuit operator and a mode other than
`None`, the chunks are those of `L` followed by the one synthesized skipped chunk for `R`
exactly when short-circuit simulation is on and the last chunk of `L` exists, is error-free
and is `true` (`||`/`or`), `false` (`&&`/`and`) or non-nil (`??`); in every other case they
are the chunks of `L` followed by the chunks of `R`. -/
theorem shortCircuit_chunks {Env Program : Type} (eng : Engine Env Program) (t : Tracer Env)
    (operator : String) (left right : Node) (hm : t.mode ≠ .TraceNone)
    (ho : operator = "||" ∨ operator = "or" ∨ operator = "&&" ∨ operator = "and" ∨
      operator = "??") :
    (chunksOf eng t (.binary operator left right) =
        chunksOf eng t left ++
          [{ ID := "", Fingerprint := Fingerprint (Format right), Expr := Format right,
             Value := .nil, Skipped := true, Error := "", Reason := "" }] ↔
      (t.shortCircuit = true ∧
        ∃ c, (chunksOf eng t left).getLast? = some c ∧ c.Error = "" ∧
          (((operator = "||" ∨ operator = "or") ∧ c.Value = .bool true) ∨
           ((operator = "&&" ∨ operator = "and") ∧ c.Value = .bool false) ∨
           (operator = "??" ∧ c.Value ≠ .nil)))) ∧
    (¬ (t.shortCircuit = true ∧
        ∃ c, (chunksOf eng t left).getLast? = some c ∧ c.Error = "" ∧
          (((operator = "||" ∨ operator = "or") ∧ c.Value = .bool true) ∨
           ((operator = "&&" ∨ operator = "and") ∧ c.Value = .bool false) ∨
           (operator = "??" ∧ c.Value ≠ .nil))) →
      chunksOf eng t (.binary operator left right) =
        chunksOf eng t left ++ chunksOf eng t right) := by
  have hop : IsShortCircuitOp operator = true := by
    rcases ho with rfl | rfl | rfl | rfl | rfl <;> decide
  have key := chunksOf_shortCircuit eng t operator left right hm hop
  rw [← skipRule_iff operator (chunksOf eng t left) ho]
  have hb : (t.shortCircuit && skipRule operator (chunksOf eng t left)) = true ↔
      (t.shortCircuit = true ∧ skipRule operator (chunksOf eng t left) = true) := by
    simp
  rw [← hb]
  cases hk : (t.shortCircuit && skipRule operator (chunksOf eng t left))
  · rw [hk] at key
    simp only [Bool.false_eq_true, if_false] at key
    refine ⟨⟨fun h => ?_, fun h => by cases h⟩, fun _ => key⟩
    rw [key] at h
    have h2 := List.append_cancel_left h
    have h3 := skipped_expr_shorter eng t right
      { ID := "", Fingerprint := Fingerprint (Format right), Expr := Format right,
        Value := .nil, Skipped := true, Error := "", Reason := "" }
      (by rw [h2]; exact List.mem_singleton.mpr rfl) rfl
    exact absurd h3 (Nat.lt_irrefl _)
  · rw [hk] at key
    simp only [if_true] at key
    exact ⟨⟨fun _ => rfl, fun _ => key⟩, fun h => absurd rfl h⟩

/-- C2 at `a == 1 || b == 2` and at `b == 2 || a == 1` on `{a: 1, b: 5}` in `Atomic` mode: in
the first the left side ends in `true` and the right side is the one skipped chunk; in the
second the left side ends in `false` and the right side is evaluated. -/
theorem shortCircuit_chunks_witness :
    tracerAtomic.mode ≠ .TraceNone ∧
    (("||" : String) = "||" ∨ ("||" : String) = "or" ∨ ("||" : String) = "&&" ∨
      ("||" : String) = "and" ∨ ("||" : String) = "??") ∧
    (chunksOf engABC tracerAtomic (.binary "||" atomA atomB)).map
      (fun c => (c.Expr, c.Value, c.Skipped)) =
      [("a == 1", .bool true, false), ("b == 2", .nil, true)] ∧
    (chunksOf engABC tracerAtomic (.binary "||" atomA atomB) =
        chunksOf engABC tracerAtomic atomA ++
          [{ ID := "", Fingerprint := Fingerprint (Format atomB), Expr := Format atomB,
             Value := .nil, Skipped := true, Error := "", Reason := "" }] ↔
      (tracerAtomic.shortCircuit = true ∧
        ∃ c, (chunksOf engABC tracerAtomic atomA).getLast? = some c ∧ c.Error = "" ∧
          (((("||" : String) = "||" ∨ ("||" : String) = "or") ∧ c.Value = .bool true) ∨
           ((("||" : String) = "&&" ∨ ("||" : String) = "and") ∧ c.Value = .bool false) ∨
           (("||" : String) = "??" ∧ c.Value ≠ .nil)))) ∧
    (chunksOf engABC tracerAtomic (.binary "||" atomB atomA)).map
      (fun c => (c.Expr, c.Value, c.Skipped)) =
      [("b == 2", .bool false, false), ("a == 1", .bool true, false)] ∧
    chunksOf engABC tracerAtomic (.binary "||" atomB atomA) =
      chunksOf engABC tracerAtomic atomB ++ chunksOf engABC tracerAtomic atomA :=
  ⟨by decide, by decide, by decide,
    (shortCircuit_chunks engABC tracerAtomic "||" atomA atomB (by decide) (by decide)).1,
    by decide,
    (shortCircuit_chunks engABC tracerAtomic "||" atomB atomA (by decide) (by decide)).2
      (by decide)⟩

/-! ## Wrapper nodes are transparent -/

theorem stripChain_of_not_chain (n : Node) (hc : isChain n = false) : stripChain n = n := by
  cases n <;> first | rfl | simp [isChain] at hc

theorem isChain_stripChain (n : Node) : isChain (stripChain n) = false := by
  induction n using traceInduction with
  | hchain n ih => simpa only [stripChain] using ih
  | hbin operator left right ho ihl ihr => rfl
  | hunits n hc hs => rw [stripChain_of_not_chain n hc]; exact hc

theorem Format_stripChain (n : Node) : Format (stripChain n) = Format n := by
  induction n using traceInduction with
  | hchain n ih => simpa only [stripChain, Format] using ih
  | hbin operator left right ho ihl ihr => rfl
  | hunits n hc hs => rw [stripChain_of_not_chain n hc]

theorem CollectAtoms_stripChain (n : Node) : CollectAtoms (stripChain n) = CollectAtoms n := by
  induction n using traceInduction with
  | hchain n ih => simpa only [stripChain, CollectAtoms, collectAtoms] using ih
  | hbin operator left right ho ihl ihr => rfl
  | hunits n hc hs => rw [stripChain_of_not_chain n hc]

theorem chunksOf_stripChain {Env Program : Type} (eng : Engine Env Program) (t : Tracer Env)
    (n : Node) : chunksOf eng t (stripChain n) = chunksOf eng t n := by
  induction n using traceInduction with
  | hchain n ih => rw [chunksOf_chain]; simpa only [stripChain] using ih
  | hbin operator left right ho ihl ihr => rfl
  | hunits n hc hs => rw [stripChain_of_not_chain n hc]

/-- The chunks of a node that is not traced structurally, in `Atomic` mode. -/
theorem chunksOf_atomic {Env Program : Type} (eng : Engine Env Program) (t : Tracer Env)
    (n : Node) (hm : t.mode = .TraceAtomic) (hs : isShortCircuitNode (stripChain n) = false) :
    chunksOf eng t n =
      if (CollectAtoms n).length = 0 then [chunkOf eng t (stripChain n)]
      else (CollectAtoms n).map (chunkOf eng t) := by
  rw [← chunksOf_stripChain, chunksOf_units eng t (stripChain n) (by rw [hm]; decide)
    (isChain_stripChain n) hs, CollectAtoms_stripChain, hm]
  by_cases h : (CollectAtoms n).length = 0
  · rw [if_pos (Or.inr h), if_pos h]
  · rw [if_neg (by simp [h]), if_neg (by decide), if_neg h]

/-- The chunks of a node that is not traced structurally, in `Coarse` mode. -/
theorem chunksOf_coarse {Env Program : Type} (eng : Engine Env Program) (t : Tracer Env)
    (n : Node) (hm : t.mode = .TraceCoarse) (hs : isShortCircuitNode (stripChain n) = false) :
    chunksOf eng t n = [chunkOf eng t (stripChain n)] := by
  rw [← chunksOf_stripChain, chunksOf_units eng t (stripChain n) (by rw [hm]; decide)
    (isChain_stripChain n) hs, hm]
  rw [if_pos (Or.inl rfl)]

/-! ## Atomic mode -/

/-- C4 (amended). In `Atomic` mode, for every engine and every node that is not a short-circuit
operator (after unwrapping wrapper nodes), chunk production ends with a chunk, and that last
chunk carries the value and error the engine gives for the canonical text of the last atom
collected under the node; it carries those of the node's own canonical text `Format n` only
when no atom is collected. -/
theorem atomic_last_chunk {Env Program : Type} (eng : Engine Env Program) (t : Tracer Env)
    (n : Node) (hm : t.mode = .TraceAtomic) (hs : isShortCircuitNode (stripChain n) = false) :
    ∃ c, (chunksOf eng t n).getLast? = some c ∧
      (c.Value, c.Error) =
        evalDirect eng t
          (match (CollectAtoms n).getLast? with
           | some a => Format a
           | none => Format n) := by
  rw [chunksOf_atomic eng t n hm hs]
  cases ha : CollectAtoms n with
  | nil =>
    refine ⟨chunkOf eng t (stripChain n), by simp, ?_⟩
    rw [chunkOf_eq, Format_stripChain]
    rfl
  | cons a rest =>
    have hne : (a :: rest) ≠ [] := by simp
    refine ⟨chunkOf eng t ((a :: rest).getLast hne), ?_, ?_⟩
    · simp only [List.length_cons, Nat.add_one_ne_zero, if_false, List.getLast?_map,
        List.getLast?_eq_getLast _ hne, Option.map_some']
    · rw [chunkOf_eq, List.getLast?_eq_getLast _ hne]

/-- C4 at `a == 1 ? false : true`: the last chunk carries what the engine gives for the atom
`a == 1`. -/
theorem atomic_last_chunk_witness :
    tracerAtomic.mode = .TraceAtomic ∧ isShortCircuitNode (stripChain ternaryA) = false ∧
    ∃ c, (chunksOf engTernary tracerAtomic ternaryA).getLast? = some c ∧
      (c.Value, c.Error) =
        evalDirect engTernary tracerAtomic
          (match (CollectAtoms ternaryA).getLast? with
           | some a => Format a
           | none => Format ternaryA) :=
  ⟨by decide, by decide, atomic_last_chunk engTernary tracerAtomic ternaryA (by decide) (by decide)⟩

/-- C4 (counterexample). For `n = a == 1 ? false : true` on `{a: 1}`, a node that is not a
short-circuit operator, in `Atomic` mode: the last chunk of `n` has value `true`, the engine
gives `false` for `Format n`, and the right operand of `n || b == 2` is skipped although `n`
is `false`. -/
theorem atomic_last_chunk_not_node_value :
    tracerAtomic.mode = .TraceAtomic ∧ isChain ternaryA = false ∧
    isShortCircuitNode ternaryA = false ∧
    (chunksOf engTernary tracerAtomic ternaryA).getLast?.map (fun c => (c.Value, c.Error)) =
      some (.bool true, "") ∧
    evalDirect engTernary tracerAtomic (Format ternaryA) = (.bool false, "") ∧
    (chunksOf engTernary tracerAtomic ternaryA).getLast?.map (fun c => (c.Value, c.Error)) ≠
      some (evalDirect engTernary tracerAtomic (Format ternaryA)) ∧
    (chunksOf engTernary tracerAtomic (.binary "||" ternaryA atomB)).map
        (fun c => (c.Expr, c.Value, c.Skipped)) =
      [("a == 1", .bool true, false), ("b == 2", .nil, true)] := by
  decide

/-- C5. In `Atomic` mode, for every node that is not a short-circuit operator (after
unwrapping wrapper nodes): when `CollectAtoms` finds atoms `a1 .. ak`, chunk production
returns exactly the `k` chunks of the evaluations of `a1 .. ak`, in that order, the i-th with
`Expr = Format ai`, none skipped; when it finds none it returns one chunk with
`Expr = Format n`, the same chunks `Coarse` mode produces. -/
theorem atomic_chunks_per_atom {Env Program : Type} (eng : Engine Env Program)
    (t : Tracer Env) (n : Node) (hm : t.mode = .TraceAtomic)
    (hs : isShortCircuitNode (stripChain n) = false) :
    (CollectAtoms n ≠ [] →
      chunksOf eng t n =
        (CollectAtoms n).map (fun a =>
          { ID := "", Fingerprint := Fingerprint (Format a), Expr := Format a,
            Value := (evalDirect eng t (Format a)).1, Skipped := false,
            Error := (evalDirect eng t (Format a)).2, Reason := "" })) ∧
    (CollectAtoms n = [] →
      chunksOf eng t n =
        [{ ID := "", Fingerprint := Fingerprint (Format n), Expr := Format n,
           Value := (evalDirect eng t (Format n)).1, Skipped := false,
           Error := (evalDirect eng t (Format n)).2, Reason := "" }] ∧
      chunksOf eng { t with mode := .TraceCoarse } n = chunksOf eng t n) := by
  have key := chunksOf_atomic eng t n hm hs
  constructor
  · intro hne
    have hl : (CollectAtoms n).length ≠ 0 := by
      intro h0
      exact hne (List.length_eq_zero.mp h0)
    rw [key]
    simp only [hl, if_false]
    exact List.map_congr_left (fun a _ => chunkOf_eq eng t a)
  · intro he
    have hk : chunksOf eng t n = [chunkOf eng t (stripChain n)] := by
      rw [key, he]
      rfl
    refine ⟨?_, ?_⟩
    · rw [hk, chunkOf_eq, Format_stripChain]
    · rw [hk, chunksOf_coarse eng { t with mode := .TraceCoarse } n rfl hs]
      rfl


/-- C5 at `a == 1 ? false : true`, which holds the one atom `a == 1`, and at `ok`, which
holds none. -/
theorem atomic_chunks_per_atom_witness :
    (tracerAtomic.mode = .TraceAtomic ∧ isShortCircuitNode (stripChain ternaryA) = false ∧
      (CollectAtoms ternaryA).map Format = ["a == 1"] ∧
      chunksOf engTernary tracerAtomic ternaryA =
        (CollectAtoms ternaryA).map (fun a =>
          { ID := "", Fingerprint := Fingerprint (Format a), Expr := Format a,
            Value := (evalDirect engTernary tracerAtomic (Format a)).1, Skipped := false,
            Error := (evalDirect engTernary tracerAtomic (Format a)).2, Reason := "" })) ∧
    (isShortCircuitNode (stripChain (.identifier "ok")) = false ∧
      CollectAtoms (.identifier "ok") = [] ∧
      chunksOf engOk tracerAtomic (.identifier "ok") =
        [{ ID := "", Fingerprint := Fingerprint (Format (.identifier "ok")),
           Expr := Format (.identifier "ok"),
           Value := (evalDirect engOk tracerAtomic (Format (.identifier "ok"))).1,
           Skipped := false,
           Error := (evalDirect engOk tracerAtomic (Format (.identifier "ok"))).2,
           Reason := "" }] ∧
      chunksOf engOk { tracerAtomic with mode := .TraceCoarse } (.identifier "ok") =
        chunksOf engOk tracerAtomic (.identifier "ok")) :=
  ⟨⟨by decide, by decide, by decide,
      (atomic_chunks_per_atom engTernary tracerAtomic ternaryA (by decide) (by decide)).1
        (fun h => absurd (congrArg List.length h) (by decide))⟩,
    ⟨by decide, rfl,
      (atomic_chunks_per_atom engOk tracerAtomic (.identifier "ok") (by decide) (by decide)).2
        rfl⟩⟩

/-! ## The code at the failing inputs -/

/-- C3 (the code at the failing input). Tracing `a == 1 || b == 2 || c == 3`, the tree
`(a == 1 || b == 2) || c == 3`, on `{a: 1, b: 5, c: 7}` in `Atomic` mode with short-circuit
on: the chunk of `a == 1` is `true` and `b == 2` is skipped, but `c == 3` is evaluated (its
chunk is not skipped and carries `false`), because the peek sees the skipped chunk of
`b == 2` as the last chunk of the left side. -/
theorem chain_third_operand_evaluated :
    (Trace engABC tracerAtomic "a == 1 || b == 2 || c == 3" []).Chunks.map
        (fun c => (c.Expr, c.Value, c.Skipped, c.Error)) =
      [("a == 1", .bool true, false, ""), ("b == 2", .nil, true, ""),
       ("c == 3", .bool false, false, "")] ∧
    (Trace engABC tracerAtomic "a == 1 || b == 2 || c == 3" []).Final = .bool true := by
  decide

/-- C6 (the code at the failing input). Tracing `ok` on `{ok: true}` in
`AtomicFailuresOnly` mode returns one chunk that is not skipped, has no error and has value
`true`: the one-chunk fallback for a node without atoms is not filtered. -/
theorem failuresOnly_keeps_true_fallback :
    (Trace engOk tracerFailuresOnly "ok" []).Chunks.map
        (fun c => (c.Expr, c.Value, c.Skipped, c.Error)) = [("ok", .bool true, false, "")] ∧
    (Trace engOk tracerFailuresOnly "ok" []).Final = .bool true := by
  decide

/-- C7 (the code at the failing input). Tracing `a == 1 || b == 2` on `{a: 1, b: 5}`:
`Atomic` mode gives the `true` chunk of `a == 1` and the skipped chunk of `b == 2`;
`AtomicFailuresOnly` mode gives one evaluated, not skipped, `false` chunk for `b == 2`, which
is not the `Atomic` list filtered: the dropped `true` atom no longer short-circuits. -/
theorem failuresOnly_not_filtered_atomic :
    (Trace engABC tracerAtomic "a == 1 || b == 2" []).Chunks.map
        (fun c => (c.Expr, c.Value, c.Skipped, c.Error)) =
      [("a == 1", .bool true, false, ""), ("b == 2", .nil, true, "")] ∧
    ((Trace engABC tracerAtomic "a == 1 || b == 2" []).Chunks.filter isFailure).map
        (fun c => (c.Expr, c.Value, c.Skipped, c.Error)) =
      [("b == 2", .nil, true, "")] ∧
    (Trace engABC tracerFailuresOnly "a == 1 || b == 2" []).Chunks.map
        (fun c => (c.Expr, c.Value, c.Skipped, c.Error)) =
      [("b == 2", .bool false, false, "")] := by
  decide

/-! ## Patching: no match, no change -/

theorem wrapAtom_of_not_atom (fingerprint : String → String) (specs : Specs) (n : Node)
    (h : IsAtomNode n = false) : wrapAtom fingerprint specs n = n := by
  simp [wrapAtom, h]

theorem wrapAtom_of_no_spec (fingerprint : String → String) (specs : Specs) (n : Node)
    (h : IsAtomNode n = true → hasSpec fingerprint specs n = false) :
    wrapAtom fingerprint specs n = n := by
  cases ha : IsAtomNode n with
  | false => exact wrapAtom_of_not_atom fingerprint specs n ha
  | true =>
    have h1 := h ha
    unfold hasSpec at h1
    unfold wrapAtom
    cases hl : specs.lookup (fingerprint (Format n)) with
    | none => simp [hl]
    | some spec =>
      rw [hl] at h1
      simp only [ne_eq, decide_not, Bool.not_eq_false', decide_eq_true_eq] at h1
      simp [hl, h1]

theorem NoSpecHit.left {fingerprint : String → String} {specs : Specs} {xs ys : List Node}
    (h : NoSpecHit fingerprint specs (xs ++ ys)) : NoSpecHit fingerprint specs xs :=
  fun a ha => h a (List.mem_append.mpr (Or.inl ha))

theorem NoSpecHit.right {fingerprint : String → String} {specs : Specs} {xs ys : List Node}
    (h : NoSpecHit fingerprint specs (xs ++ ys)) : NoSpecHit fingerprint specs ys :=
  fun a ha => h a (List.mem_append.mpr (Or.inr ha))

theorem NoSpecHit.tail {fingerprint : String → String} {specs : Specs} {x : Node}
    {xs : List Node} (h : NoSpecHit fingerprint specs (x :: xs)) :
    NoSpecHit fingerprint specs xs :=
  fun a ha => h a (List.mem_cons_of_mem x ha)

mutual
theorem walk_eq_self (fingerprint : String → String) (specs : Specs) :
    ∀ n : Node, NoSpecHit fingerprint specs (subnodes n) → walk fingerprint specs n = n
  | .binary operator left right => fun h => by
    simp only [subnodes] at h
    have hl := walk_eq_self fingerprint specs left h.tail.left
    have hr := walk_eq_self fingerprint specs right h.tail.right
    simp only [walk, hl, hr]
    exact wrapAtom_of_no_spec fingerprint specs _ (h _ (List.mem_cons_self _ _))
  | .unary operator node => fun h => by
    simp only [subnodes] at h
    simp only [walk, walk_eq_self fingerprint specs node h.tail]
    exact wrapAtom_of_not_atom fingerprint specs _ rfl
  | .conditional cond exp1 exp2 => fun h => by
    simp only [subnodes] at h
    simp only [walk, walk_eq_self fingerprint specs cond h.tail.left.left,
      walk_eq_self fingerprint specs exp1 h.tail.left.right,
      walk_eq_self fingerprint specs exp2 h.tail.right]
    exact wrapAtom_of_not_atom fingerprint specs _ rfl
  | .call callee arguments => fun h => by
    simp only [subnodes] at h
    simp only [walk, walk_eq_self fingerprint specs callee h.tail.left,
      walkList_eq_self fingerprint specs arguments h.tail.right]
    exact wrapAtom_of_not_atom fingerprint specs _ rfl
  | .builtin name arguments map => fun h => by
    simp only [subnodes] at h
    simp only [walk, walkOpt_eq_self fingerprint specs map h.tail.left,
      walkList_eq_self fingerprint specs arguments h.tail.right]
    exact wrapAtom_of_not_atom fingerprint specs _ rfl
  | .member node property optional method => fun h => by
    simp only [subnodes] at h
    simp only [walk, walk_eq_self fingerprint specs node h.tail.left,
      walk_eq_self fingerprint specs property h.tail.right]
    exact wrapAtom_of_not_atom fingerprint specs _ rfl
  | .slice node sfrom sto => fun h => by
    simp only [subnodes] at h
    simp only [walk, walk_eq_self fingerprint specs node h.tail.left.left,
      walkOpt_eq_self fingerprint specs sfrom h.tail.left.right,
      walkOpt_eq_self fingerprint specs sto h.tail.right]
    exact wrapAtom_of_not_atom fingerprint specs _ rfl
  | .array nodes => fun h => by
    simp only [subnodes] at h
    simp only [walk, walkList_eq_self fingerprint specs nodes h.tail]
    exact wrapAtom_of_not_atom fingerprint specs _ rfl
  | .map pairs => fun h => by
    simp only [subnodes] at h
    simp only [walk, walkList_eq_self fingerprint specs pairs h.tail]
    exact wrapAtom_of_not_atom fingerprint specs _ rfl
  | .pair key value => fun h => by
    simp only [subnodes] at h
    simp only [walk, walk_eq_self fingerprint specs key h.tail.left,
      walk_eq_self fingerprint specs value h.tail.right]
    exact wrapAtom_of_not_atom fingerprint specs _ rfl
  | .sequence nodes => fun h => by
    simp only [subnodes] at h
    simp only [walk, walkList_eq_self fingerprint specs nodes h.tail]
    exact wrapAtom_of_not_atom fingerprint specs _ rfl
  | .variableDeclarator name value expr => fun h => by
    simp only [subnodes] at h
    simp only [walk, walk_eq_self fingerprint specs value h.tail.left,
      walk_eq_self fingerprint specs expr h.tail.right]
    exact wrapAtom_of_not_atom fingerprint specs _ rfl
  | .predicate node => fun h => by
    simp only [subnodes] at h
    simp only [walk, walk_eq_self fingerprint specs node h.tail]
    exact wrapAtom_of_not_atom fingerprint specs _ rfl
  | .chain node => fun h => by
    simp only [subnodes] at h
    simp only [walk, walk_eq_self fingerprint specs node h.tail]
    exact wrapAtom_of_not_atom fingerprint specs _ rfl
  | .nilNode => fun _ => wrapAtom_of_not_atom fingerprint specs _ rfl
  | .identifier _ => fun _ => wrapAtom_of_not_atom fingerprint specs _ rfl
  | .integer _ => fun _ => wrapAtom_of_not_atom fingerprint specs _ rfl
  | .float _ => fun _ => wrapAtom_of_not_atom fingerprint specs _ rfl
  | .bool _ => fun _ => wrapAtom_of_not_atom fingerprint specs _ rfl
  | .string _ => fun _ => wrapAtom_of_not_atom fingerprint specs _ rfl
  | .constant _ => fun _ => wrapAtom_of_not_atom fingerprint specs _ rfl
  | .pointer _ => fun _ => wrapAtom_of_not_atom fingerprint specs _ rfl
theorem walkList_eq_self (fingerprint : String → String) (specs : Specs) :
    ∀ ns : List Node, NoSpecHit fingerprint specs (subnodesList ns) →
      walkList fingerprint specs ns = ns
  | [] => fun _ => rfl
  | n :: ns => fun h => by
    simp only [subnodesList] at h
    simp only [walkList, walk_eq_self fingerprint specs n h.left,
      walkList_eq_self fingerprint specs ns h.right]
theorem walkOpt_eq_self (fingerprint : String → String) (specs : Specs) :
    ∀ o : Option Node, NoSpecHit fingerprint specs (subnodesOpt o) →
      walkOpt fingerprint specs o = o
  | none => fun _ => rfl
  | some n => fun h => by
    simp only [subnodesOpt] at h
    simp only [walkOpt, walk_eq_self fingerprint specs n h]
end


/-- C10. For every tree, fingerprint function and specs map: if the map is empty, or no atom
node of the tree has a canonical form whose fingerprint is a key of the map with a non-empty
ID, `WrapAtomsWithCond` returns the tree unchanged, hence with the same canonical form. -/
theorem wrap_no_match_identity (root : Node) (fingerprint : String → String) (specs : Specs)
    (h : specs = [] ∨
      ∀ a ∈ subnodes root, IsAtomNode a = true → hasSpec fingerprint specs a = false) :
    WrapAtomsWithCond root fingerprint specs = root ∧
      Format (WrapAtomsWithCond root fingerprint specs) = Format root := by
  have key : WrapAtomsWithCond root fingerprint specs = root := by
    unfold WrapAtomsWithCond
    rcases h with rfl | h
    · rfl
    · rw [walk_eq_self fingerprint specs root h]
      simp
  exact ⟨key, by rw [key]⟩

set_option maxRecDepth 100000 in
/-- C10 at `b == 2 || c == 3` with a specs map that only knows `a == 1`, and at `a == 1` with
the empty map. -/
theorem wrap_no_match_identity_witness :
    ((specsA = [] ∨
      ∀ a ∈ subnodes (.binary "||" atomB atomC), IsAtomNode a = true →
        hasSpec Fingerprint specsA a = false) ∧
      WrapAtomsWithCond (.binary "||" atomB atomC) Fingerprint specsA =
        .binary "||" atomB atomC ∧
      Format (WrapAtomsWithCond (.binary "||" atomB atomC) Fingerprint specsA) =
        Format (.binary "||" atomB atomC)) ∧
    (WrapAtomsWithCond atomA Fingerprint [] = atomA ∧
      Format (WrapAtomsWithCond atomA Fingerprint []) = Format atomA) :=
  ⟨⟨Or.inr (by decide), wrap_no_match_identity _ _ _ (Or.inr (by decide))⟩,
    wrap_no_match_identity atomA Fingerprint [] (Or.inl rfl)⟩

/-! ## Compile failure and the strict entry point -/

/-- C8. When the engine fails to compile the input, in every mode, `Trace` returns the result
with `Source` the input, `Final` nil and the one chunk carrying the input, its fingerprint
and the compile error text (value nil, not skipped); `trace` without fail-fast reports no
error, and `TraceStrict` returns the same result together with the compile error. -/
theorem compile_failure_result {Env Program : Type} (eng : Engine Env Program) (t : Tracer Env)
    (input : String) (specs : Specs) (err : String)
    (h : eng.compile t.env t.enableCond input = .error err) :
    Trace eng t input specs =
      { Source := input
        Chunks := [{ ID := "", Fingerprint := Fingerprint input, Expr := input, Value := .nil,
                     Skipped := false, Error := err, Reason := "" }]
        Final := .nil
        Mode := t.mode } ∧
    (trace eng t input specs false).2 = none ∧
    TraceStrict eng t input specs = (Trace eng t input specs, some err) := by
  unfold Trace TraceStrict
  rw [trace_error eng t input specs false err h, trace_error eng t input specs true err h]
  simp

/-- C8 at the input `a ==`, which the engine does not compile. -/
theorem compile_failure_result_witness :
    engABC.compile tracerAtomic.env tracerAtomic.enableCond "a ==" =
      .error "compile error: a ==" ∧
    (Trace engABC tracerAtomic "a ==" specsA =
      { Source := "a =="
        Chunks := [{ ID := "", Fingerprint := Fingerprint "a ==", Expr := "a ==", Value := .nil,
                     Skipped := false, Error := "compile error: a ==", Reason := "" }]
        Final := .nil
        Mode := tracerAtomic.mode } ∧
    (trace engABC tracerAtomic "a ==" specsA false).2 = none ∧
    TraceStrict engABC tracerAtomic "a ==" specsA =
      (Trace engABC tracerAtomic "a ==" specsA, some "compile error: a ==")) :=
  ⟨rfl, compile_failure_result engABC tracerAtomic "a ==" specsA _ rfl⟩

/-- C9. `TraceStrict` returns an error exactly when compiling the input fails, whatever the
chunk evaluations and the final evaluation do at run time, and its result is the one `Trace`
returns. -/
theorem traceStrict_error_iff {Env Program : Type} (eng : Engine Env Program) (t : Tracer Env)
    (input : String) (specs : Specs) :
    ((TraceStrict eng t input specs).2 ≠ none ↔
      ∃ err, eng.compile t.env t.enableCond input = .error err) ∧
    (TraceStrict eng t input specs).1 = Trace eng t input specs := by
  unfold Trace TraceStrict
  cases h : eng.compile t.env t.enableCond input with
  | error err =>
    rw [trace_error eng t input specs false err h, trace_error eng t input specs true err h]
    simp
  | ok tree =>
    have h1 := trace_ok eng t input specs true tree h
    rw [h1.1]
    exact ⟨by simp, h1.2.2.2⟩

/-! ## The recorder -/

/-- C14. The function returned by `Recorder.Func` fails with an error exactly when it is
called with a number of arguments other than four or with a fourth argument that is not a
boolean, and a failing call leaves the map of seen records unchanged. -/
theorem recorderFunc_error_iff (seen : Seen) (params : List Value) :
    ((∃ err, (RecorderFunc seen params).1 = .error err) ↔
      (params.length ≠ 4 ∨ ∀ b, params.getD 3 .nil ≠ .bool b)) ∧
    ((∃ err, (RecorderFunc seen params).1 = .error err) → (RecorderFunc seen params).2 = seen) := by
  unfold RecorderFunc
  by_cases hl : params.length ≠ 4
  · simp [hl]
  · simp only [hl, if_false, false_or]
    cases h3 : params.getD 3 .nil <;> simp

/-- C15. A call with three strings `id`, `reasonTrue`, `reasonFalse` and a boolean `p`
returns `p` with no error; afterwards the map holds under `id` the record with that ID, value
`p` and reason `reasonTrue` if `p` else `reasonFalse`, whatever it held there before, and the
records of all other ids are as before. -/
theorem recorderFunc_records (seen : Seen) (id reasonTrue reasonFalse : String) (p : Bool) :
    (RecorderFunc seen [.str id, .str reasonTrue, .str reasonFalse, .bool p]).1 =
      .ok (.bool p) ∧
    (RecorderFunc seen [.str id, .str reasonTrue, .str reasonFalse, .bool p]).2.lookup id =
      some { ID := id, Value := p, Reason := if p then reasonTrue else reasonFalse } ∧
    ∀ other, other ≠ id →
      (RecorderFunc seen [.str id, .str reasonTrue, .str reasonFalse, .bool p]).2.lookup other =
        seen.lookup other := by
  refine ⟨rfl, ?_, ?_⟩
  · simp [RecorderFunc, asString, lookup_mapSet]
  · intro other ho
    simp [RecorderFunc, asString, lookup_mapSet, ho]

/-- C14 at a call whose fourth argument is the integer 1, with one record already stored. -/
theorem recorderFunc_error_iff_witness :
    (∃ err, (RecorderFunc [("c_a", { ID := "c_a", Value := true, Reason := "A_IS_ONE" })]
      [.str "c_b", .str "YES", .str "NO", .int 1]).1 = .error err) ∧
    (RecorderFunc [("c_a", { ID := "c_a", Value := true, Reason := "A_IS_ONE" })]
      [.str "c_b", .str "YES", .str "NO", .int 1]).2 =
      [("c_a", { ID := "c_a", Value := true, Reason := "A_IS_ONE" })] :=
  ⟨⟨_, rfl⟩,
    (recorderFunc_error_iff [("c_a", { ID := "c_a", Value := true, Reason := "A_IS_ONE" })]
      [.str "c_b", .str "YES", .str "NO", .int 1]).2 ⟨_, rfl⟩⟩

/-- C15 at a second call for `c_a`, now false, with a record of `c_b` stored as well. -/
theorem recorderFunc_records_witness :
    ("c_b" : String) ≠ "c_a" ∧
    (RecorderFunc
        [("c_a", { ID := "c_a", Value := true, Reason := "A_IS_ONE" }),
         ("c_b", { ID := "c_b", Value := true, Reason := "YES" })]
        [.str "c_a", .str "A_IS_ONE", .str "A_NOT_ONE", .bool false]).2.lookup "c_a" =
      some { ID := "c_a", Value := false, Reason := "A_NOT_ONE" } ∧
    (RecorderFunc
        [("c_a", { ID := "c_a", Value := true, Reason := "A_IS_ONE" }),
         ("c_b", { ID := "c_b", Value := true, Reason := "YES" })]
        [.str "c_a", .str "A_IS_ONE", .str "A_NOT_ONE", .bool false]).2.lookup "c_b" =
      List.lookup "c_b"
        [("c_a", { ID := "c_a", Value := true, Reason := "A_IS_ONE" }),
         ("c_b", { ID := "c_b", Value := true, Reason := "YES" })] :=
  ⟨by decide,
    (recorderFunc_records _ "c_a" "A_IS_ONE" "A_NOT_ONE" false).2.1,
    (recorderFunc_records _ "c_a" "A_IS_ONE" "A_NOT_ONE" false).2.2 "c_b" (by decide)⟩

/-! ## Spec validation -/

/-- C16. `ValidateSpecs` returns an error exactly when the map has an entry whose key is the
empty string or whose ID is the empty string; for a map with only non-empty keys and
non-empty IDs, the empty map included, it returns nil. -/
theorem validateSpecs_error_iff (specs : Specs) :
    (ValidateSpecs specs ≠ none ↔ ∃ e ∈ specs, e.1 = "" ∨ e.2.ID = "") ∧
    ((∀ e ∈ specs, e.1 ≠ "" ∧ e.2.ID ≠ "") → ValidateSpecs specs = none) := by
  have key : ValidateSpecs specs ≠ none ↔ ∃ e ∈ specs, e.1 = "" ∨ e.2.ID = "" := by
    induction specs with
    | nil => simp [ValidateSpecs]
    | cons e rest ih =>
      obtain ⟨fp, s⟩ := e
      unfold ValidateSpecs
      by_cases h1 : fp = ""
      · simp [h1]
      · by_cases h2 : s.ID = ""
        · simp [h1, h2]
        · simp only [h1, h2, if_false, ih]
          simp [h1, h2]
  refine ⟨key, fun h => ?_⟩
  by_contra hne
  obtain ⟨e, he, hb⟩ := key.mp hne
  rcases hb with hb | hb
  · exact (h e he).1 hb
  · exact (h e he).2 hb

set_option maxRecDepth 100000 in
/-- C16 at the specs map of the playground, which is well-formed. -/
theorem validateSpecs_error_iff_witness :
    (∀ e ∈ playgroundSpecs, e.1 ≠ "" ∧ e.2.ID ≠ "") ∧ ValidateSpecs playgroundSpecs = none :=
  ⟨by decide, (validateSpecs_error_iff playgroundSpecs).2 (by decide)⟩

/-! ## Fingerprint -/

theorem beBytes_length (k x : Nat) : (beBytes k x).length = k := by
  induction k with
  | zero => rfl
  | succ k ih => simp [beBytes, ih]

theorem sha1Sum_length (msg : List UInt8) : (sha1Sum msg).length = 20 := by
  simp [sha1Sum, beBytes_length]

theorem hexDigit_mem (n : Nat) (h : n < 16) : hexDigit n ∈ "0123456789abcdef".data := by
  interval_cases n <;> decide

theorem hexByte_data (x : UInt8) :
    (hexByte x).data = [hexDigit (x.toNat / 16), hexDigit (x.toNat % 16)] := rfl

theorem hexEncode_length (b : List UInt8) : (hexEncode b).length = 2 * b.length := by
  induction b with
  | nil => rfl
  | cons x xs ih =>
    simp only [hexEncode, String.length, String.data_join, List.map_cons, List.flatten_cons,
      List.length_append, hexByte_data, List.length_cons, List.length_nil] at ih ⊢
    omega

theorem hexEncode_chars (b : List UInt8) :
    ∀ c ∈ (hexEncode b).data, c ∈ "0123456789abcdef".data := by
  intro c hc
  simp only [hexEncode, String.data_join, List.mem_flatten, List.mem_map] at hc
  obtain ⟨l, ⟨s, ⟨x, -, rfl⟩, rfl⟩, hcl⟩ := hc
  rw [hexByte_data] at hcl
  have hx : x.toNat < 256 := x.val.isLt
  rcases List.mem_cons.mp hcl with rfl | hcl
  · exact hexDigit_mem _ (by omega)
  · rw [List.mem_singleton] at hcl
    rw [hcl]
    exact hexDigit_mem _ (by omega)

set_option maxRecDepth 100000 in
/-- The SHA-1 test vectors of FIPS 180 for `abc` and the empty message. -/
theorem sha1Sum_test_vectors :
    hexEncode (sha1Sum (stringBytes "abc")) = "a9993e364706816aba3e25717850c26c9cd0d89d" ∧
    hexEncode (sha1Sum (stringBytes "")) = "da39a3ee5e6b4b0d3255bfef95601890afd80709" ∧
    Fingerprint "user.Id == comment.UserId" = "43f88ab695d6627138b6f336d11a7cb2" := by
  decide

set_option maxRecDepth 100000 in
/-- The two-block SHA-1 test vector of FIPS 180 (a 56-byte message, so the padding spills into a
second block), a message with a two-byte UTF-8 character, and the fingerprints of the two
one-block vectors. -/
theorem sha1Sum_test_vectors_long :
    hexEncode (sha1Sum (stringBytes "abcdbcdecdefdefgefghfghighijhijkijkljklmklmnlmnomnopnopq")) =
      "84983e441c3bd26ebaae4aa1f95129e5e54670f1" ∧
    stringBytes "é" = [0xc3, 0xa9] ∧
    hexEncode (sha1Sum (stringBytes "é")) = "bf15be717ac1b080b4f1c456692825891ff5073d" ∧
    Fingerprint "abc" = "a9993e364706816aba3e25717850c26c" ∧
    Fingerprint "" = "da39a3ee5e6b4b0d3255bfef95601890" := by
  decide

/-- C17. For every input, `Fingerprint` is a string of exactly 32 characters, each a lowercase
hexadecimal digit: the hex encoding of the first 16 of the 20 bytes of the SHA-1 digest of
the input's UTF-8 bytes.  That `sha1Sum` is SHA-1 is pinned by the test vectors of FIPS 180
(the one-block message `abc`, the empty message, and the 56-byte message whose padding needs a
second block) and by a message with a two-byte character; the fingerprints of `abc`, of the
empty text and of the atom `user.Id == comment.UserId` are the first 32 digits of their
digests. -/
theorem fingerprint_shape (expr : String) :
    (Fingerprint expr).length = 32 ∧
    (∀ c ∈ (Fingerprint expr).data, c ∈ "0123456789abcdef".data) ∧
    Fingerprint expr = hexEncode ((sha1Sum (stringBytes expr)).take 16) ∧
    (sha1Sum (stringBytes expr)).length = 20 ∧
    hexEncode (sha1Sum (stringBytes "abc")) = "a9993e364706816aba3e25717850c26c9cd0d89d" ∧
    hexEncode (sha1Sum (stringBytes "")) = "da39a3ee5e6b4b0d3255bfef95601890afd80709" ∧
    hexEncode (sha1Sum (stringBytes "abcdbcdecdefdefgefghfghighijhijkijkljklmklmnlmnomnopnopq")) =
      "84983e441c3bd26ebaae4aa1f95129e5e54670f1" ∧
    stringBytes "é" = [0xc3, 0xa9] ∧
    hexEncode (sha1Sum (stringBytes "é")) = "bf15be717ac1b080b4f1c456692825891ff5073d" ∧
    Fingerprint "abc" = "a9993e364706816aba3e25717850c26c" ∧
    Fingerprint "" = "da39a3ee5e6b4b0d3255bfef95601890" ∧
    Fingerprint "user.Id == comment.UserId" = "43f88ab695d6627138b6f336d11a7cb2" := by
  refine ⟨?_, hexEncode_chars _, rfl, sha1Sum_length _,
    sha1Sum_test_vectors.1, sha1Sum_test_vectors.2.1, sha1Sum_test_vectors_long.1,
    sha1Sum_test_vectors_long.2.1, sha1Sum_test_vectors_long.2.2.1,
    sha1Sum_test_vectors_long.2.2.2.1, sha1Sum_test_vectors_long.2.2.2.2,
    sha1Sum_test_vectors.2.2⟩
  unfold Fingerprint
  rw [hexEncode_length, List.length_take, sha1Sum_length]
  rfl

/-! ## Set literals -/

theorem sortStrings_sorted (keys : List String) :
    List.Sorted (fun a b => a ≤ b) (sortStrings keys) :=
  List.sorted_insertionSort (fun a b : String => a ≤ b) keys

theorem sortStrings_perm (keys : List String) : (sortStrings keys).Perm keys :=
  List.perm_insertionSort (fun a b : String => a ≤ b) keys

theorem sortStrings_eq_of_perm (keys1 keys2 : List String) (h : keys1.Perm keys2) :
    sortStrings keys1 = sortStrings keys2 :=
  List.eq_of_perm_of_sorted
    (((sortStrings_perm keys1).trans h).trans (sortStrings_perm keys2).symm)
    (sortStrings_sorted keys1) (sortStrings_sorted keys2)

/-- C18. A constant node holding a set of strings is rendered as `[`, the keys in ascending
order, each escaped and double-quoted, joined by `, `, and `]`; hence two such nodes whose
keys are the same up to order have the same canonical form and the same fingerprint. -/
theorem format_set_sorted (keys : List String) :
    Format (.constant (.set keys)) =
      "[" ++ ", ".intercalate ((sortStrings keys).map
        (fun k => "\"" ++ escapeString k ++ "\"")) ++ "]" ∧
    List.Sorted (fun a b => a ≤ b) (sortStrings keys) ∧
    (sortStrings keys).Perm keys ∧
    ∀ keys2 : List String, keys.Perm keys2 →
      Format (.constant (.set keys)) = Format (.constant (.set keys2)) ∧
      Fingerprint (Format (.constant (.set keys))) =
        Fingerprint (Format (.constant (.set keys2))) := by
  refine ⟨rfl, sortStrings_sorted keys, sortStrings_perm keys, fun keys2 h => ?_⟩
  have hf : Format (.constant (.set keys)) = Format (.constant (.set keys2)) := by
    simp only [Format, formatConstant, sortStrings_eq_of_perm keys keys2 h]
  exact ⟨hf, by rw [hf]⟩

/-- Sorting `moderator`, `admin`. -/
theorem sortStrings_example : sortStrings ["moderator", "admin"] = ["admin", "moderator"] := by
  have h : ¬ (("moderator" : String) ≤ "admin") :=
    not_le.mpr (String.lt_iff_toList_lt.mpr (by decide))
  simp only [sortStrings, List.insertionSort, List.orderedInsert, h, if_false]

/-- C18 at the set of the playground, built as `moderator`, `admin` and as `admin`,
`moderator`. -/
theorem format_set_sorted_witness :
    ["moderator", "admin"].Perm ["admin", "moderator"] ∧
    Format (.constant (.set ["moderator", "admin"])) = "[\"admin\", \"moderator\"]" ∧
    Format (.constant (.set ["moderator", "admin"])) =
      Format (.constant (.set ["admin", "moderator"])) ∧
    Fingerprint (Format (.constant (.set ["moderator", "admin"]))) =
      Fingerprint (Format (.constant (.set ["admin", "moderator"]))) :=
  ⟨by decide,
    by rw [(format_set_sorted ["moderator", "admin"]).1, sortStrings_example]; decide,
    (format_set_sorted ["moderator", "admin"]).2.2.2 ["admin", "moderator"] (by decide)⟩

/-! ## Patching: a matched atom is wrapped in place -/

theorem walkList_eq_map (fingerprint : String → String) (specs : Specs) (ns : List Node) :
    walkList fingerprint specs ns = ns.map (walk fingerprint specs) := by
  induction ns with
  | nil => rfl
  | cons n ns ih => simp [walkList, ih]

theorem walkOpt_eq_map (fingerprint : String → String) (specs : Specs) (o : Option Node) :
    walkOpt fingerprint specs o = o.map (walk fingerprint specs) := by
  cases o <;> rfl

/-- One step of `walk`: the children are walked in their slots, then the node is wrapped or
kept. -/
theorem walk_eq_wrapAtom_mapChildren (fingerprint : String → String) (specs : Specs)
    (n : Node) :
    walk fingerprint specs n =
      wrapAtom fingerprint specs (mapChildren (walk fingerprint specs) n) := by
  cases n <;> simp only [walk, mapChildren, walkList_eq_map, walkOpt_eq_map]

theorem directChildren_mapChildren (f : Node → Node) (n : Node) :
    directChildren (mapChildren f n) = (directChildren n).map f := by
  cases n <;> simp [directChildren, mapChildren]
  all_goals (try (rename_i a b c; cases b <;> cases c <;> simp))

/-- What `wrapAtom` returns: the node itself or the node wrapped in a `Cond` call. -/
theorem wrapAtom_cases (fingerprint : String → String) (specs : Specs) (n : Node) :
    wrapAtom fingerprint specs n = n ∨ ∃ s, wrapAtom fingerprint specs n = condCall s n := by
  unfold wrapAtom
  split
  · exact Or.inl rfl
  · dsimp only
    split
    · exact Or.inl rfl
    · split
      · exact Or.inl rfl
      · exact Or.inr ⟨_, rfl⟩

theorem wrapAtom_of_spec (fingerprint : String → String) (specs : Specs) (n : Node)
    (spec : ConditionSpec) (hatom : IsAtomNode n = true)
    (hkey : specs.lookup (fingerprint (Format n)) = some spec) (hid : spec.ID ≠ "") :
    wrapAtom fingerprint specs n = condCall spec n := by
  have hc : IsCondCall n = false := by
    cases n <;> simp [IsAtomNode] at hatom
    rfl
  simp [wrapAtom, hc, hatom, hkey, hid, condCall]

theorem format_condCall (spec : ConditionSpec) (n : Node) :
    Format (condCall spec n) =
      "Cond(\"" ++ escapeString spec.ID ++ "\", \"" ++ escapeString spec.ReasonTrue ++
        "\", \"" ++ escapeString spec.ReasonFalse ++ "\", " ++ Format n ++ ")" := by
  simp only [condCall, Format, FormatList, quote, String.intercalate, String.intercalate.go]
  apply String.ext
  simp [String.data_append, List.append_assoc]

/-- An atom without nested atoms whose fingerprint is a key with a non-empty ID is wrapped,
its own subtree untouched. -/
theorem walk_atom_without_nested (fingerprint : String → String) (specs : Specs) (n : Node)
    (spec : ConditionSpec) (hatom : IsAtomNode n = true)
    (hnest : ∀ a ∈ (subnodes n).tail, IsAtomNode a = false)
    (hkey : specs.lookup (fingerprint (Format n)) = some spec) (hid : spec.ID ≠ "") :
    walk fingerprint specs n = condCall spec n := by
  rw [walk_eq_wrapAtom_mapChildren]
  have hmc : mapChildren (walk fingerprint specs) n = n := by
    cases n <;> simp [IsAtomNode] at hatom
    rename_i operator left right
    simp only [subnodes, List.tail_cons] at hnest
    have hl : NoSpecHit fingerprint specs (subnodes left) := fun a ha hat => by
      rw [hnest a (List.mem_append.mpr (Or.inl ha))] at hat
      cases hat
    have hr : NoSpecHit fingerprint specs (subnodes right) := fun a ha hat => by
      rw [hnest a (List.mem_append.mpr (Or.inr ha))] at hat
      cases hat
    simp only [mapChildren, walk_eq_self fingerprint specs left hl,
      walk_eq_self fingerprint specs right hr]
  rw [hmc]
  exact wrapAtom_of_spec fingerprint specs n spec hatom hkey hid

/-- With a non-empty map, `WrapAtomsWithCond` is `walk`. -/
theorem WrapAtomsWithCond_eq_walk (fingerprint : String → String) (specs : Specs)
    (hne : specs ≠ []) (n : Node) :
    WrapAtomsWithCond n fingerprint specs = walk fingerprint specs n := by
  have hlen : ¬ specs.length = 0 := fun h0 => hne (List.length_eq_zero.mp h0)
  simp only [WrapAtomsWithCond, hlen, if_false]

/-- Walking a `Cond` call walks its arguments: the call is kept, its fourth argument is
walked like any other node. -/
theorem walk_condCall (fingerprint : String → String) (specs : Specs) (spec : ConditionSpec)
    (n : Node) :
    walk fingerprint specs (condCall spec n) = condCall spec (walk fingerprint specs n) := by
  simp [condCall, walk, walkList, wrapAtom, IsAtomNode]

theorem isAtomNode_mapChildren (f : Node → Node) (n : Node) :
    IsAtomNode (mapChildren f n) = IsAtomNode n := by
  cases n <;> rfl

theorem isCondCall_of_atom (n : Node) (h : IsAtomNode n = true) : IsCondCall n = false := by
  cases n <;> simp [IsAtomNode] at h
  rfl

/-- What `walk` returns, by whether it wraps the node: the node rebuilt over its walked
children, inside a `Cond` call when the node is wrapped. -/
theorem walk_eq_of_wrapsNode (fingerprint : String → String) (specs : Specs) (n : Node) :
    (wrapsNode fingerprint specs n = false ∧
      walk fingerprint specs n = mapChildren (walk fingerprint specs) n) ∨
    (wrapsNode fingerprint specs n = true ∧
      ∃ s, walk fingerprint specs n = condCall s (mapChildren (walk fingerprint specs) n)) := by
  cases ha : IsAtomNode n with
  | false =>
    left
    refine ⟨by simp [wrapsNode, ha], ?_⟩
    rw [walk_eq_wrapAtom_mapChildren]
    exact wrapAtom_of_not_atom _ _ _ (by rw [isAtomNode_mapChildren, ha])
  | true =>
    have hx : IsAtomNode (mapChildren (walk fingerprint specs) n) = true := by
      rw [isAtomNode_mapChildren, ha]
    rcases wrapAtom_cases fingerprint specs (mapChildren (walk fingerprint specs) n) with h | ⟨s, h⟩
    · left
      rw [← walk_eq_wrapAtom_mapChildren] at h
      refine ⟨?_, h⟩
      simp only [wrapsNode, ha, h, isCondCall_of_atom _ hx]
      rfl
    · right
      rw [← walk_eq_wrapAtom_mapChildren] at h
      refine ⟨?_, s, h⟩
      simp only [wrapsNode, ha, h]
      rfl

theorem nodeAt_cons_of_slot (n c : Node) (i : Nat) (path : List Nat)
    (h : (directChildren n)[i]? = some c) : nodeAt n (i :: path) = nodeAt c path := by
  simp only [nodeAt, h]

theorem directChildren_condCall (spec : ConditionSpec) (n : Node) :
    (directChildren (condCall spec n))[4]? = some n := rfl

/-- The patched tree holds at the patched position what the patcher makes of the node at the
position. -/
theorem nodeAt_walk (fingerprint : String → String) (specs : Specs) :
    ∀ (path : List Nat) (root m : Node), nodeAt root path = some m →
      nodeAt (walk fingerprint specs root) (patchedPath fingerprint specs root path) =
        some (walk fingerprint specs m)
  | [], root, m, h => by
    simp only [nodeAt, Option.some.injEq] at h
    subst h
    rfl
  | i :: path, root, m, h => by
    simp only [nodeAt] at h
    cases hc : (directChildren root)[i]? with
    | none => rw [hc] at h; cases h
    | some c =>
      rw [hc] at h
      have ih := nodeAt_walk fingerprint specs path c m h
      have hslot : (directChildren (mapChildren (walk fingerprint specs) root))[i]? =
          some (walk fingerprint specs c) := by
        rw [directChildren_mapChildren, List.getElem?_map, hc, Option.map_some']
      simp only [patchedPath, hc]
      rcases walk_eq_of_wrapsNode fingerprint specs root with ⟨hw, he⟩ | ⟨hw, s, he⟩
      · rw [hw, he]
        simp only [Bool.false_eq_true, if_false, List.nil_append]
        rw [nodeAt_cons_of_slot _ _ _ _ hslot]
        exact ih
      · rw [hw, he]
        simp only [if_true, List.singleton_append]
        rw [nodeAt_cons_of_slot _ _ _ _ (directChildren_condCall s _),
          nodeAt_cons_of_slot _ _ _ _ hslot]
        exact ih

/-- A position is a subsequence of its patched position. -/
theorem sublist_patchedPath (fingerprint : String → String) (specs : Specs) :
    ∀ (path : List Nat) (root m : Node), nodeAt root path = some m →
      path.Sublist (patchedPath fingerprint specs root path)
  | [], _, _, _ => List.Sublist.slnil
  | i :: path, root, m, h => by
    simp only [nodeAt] at h
    cases hc : (directChildren root)[i]? with
    | none => rw [hc] at h; cases h
    | some c =>
      rw [hc] at h
      simp only [patchedPath, hc]
      exact List.sublist_append_of_sublist_right
        ((sublist_patchedPath fingerprint specs path c m h).cons₂ i)

/-- Below nodes that are no atoms a position is its own patched position. -/
theorem patchedPath_eq_self (fingerprint : String → String) (specs : Specs) :
    ∀ (path : List Nat) (root m : Node), nodeAt root path = some m →
      (∀ k, k < path.length → ∀ a, nodeAt root (path.take k) = some a → IsAtomNode a = false) →
      patchedPath fingerprint specs root path = path
  | [], _, _, _, _ => rfl
  | i :: path, root, m, h, hno => by
    simp only [nodeAt] at h
    cases hc : (directChildren root)[i]? with
    | none => rw [hc] at h; cases h
    | some c =>
      rw [hc] at h
      have h0 : IsAtomNode root = false := hno 0 (by simp) root rfl
      have ih := patchedPath_eq_self fingerprint specs path c m h (by
        intro k hk a ha
        refine hno (k + 1) (by simpa using hk) a ?_
        simp only [List.take_succ_cons, nodeAt, hc]
        exact ha)
      simp only [patchedPath, hc, wrapsNode, h0, Bool.false_and, Bool.false_eq_true, if_false,
        List.nil_append, ih]

theorem nodeAt_append (q : List Nat) (i : Nat) :
    ∀ (root parent : Node), nodeAt root q = some parent →
      nodeAt root (q ++ [i]) = (directChildren parent)[i]?
  | root, parent, h => by
    induction q generalizing root with
    | nil =>
      simp only [nodeAt, Option.some.injEq] at h
      subst h
      simp only [List.nil_append, nodeAt]
      cases (directChildren root)[i]? <;> rfl
    | cons j q ih =>
      simp only [nodeAt] at h
      cases hc : (directChildren root)[j]? with
      | none => rw [hc] at h; cases h
      | some c =>
        rw [hc] at h
        rw [List.cons_append, nodeAt_cons_of_slot _ _ _ _ hc]
        exact ih c h

/-- The patched position of a child: the patched position of its parent, one step into the
wrapper when the parent is wrapped, then the child's slot. -/
theorem patchedPath_append (fingerprint : String → String) (specs : Specs) (q : List Nat)
    (i : Nat) :
    ∀ (root parent c : Node), nodeAt root q = some parent →
      (directChildren parent)[i]? = some c →
      patchedPath fingerprint specs root (q ++ [i]) =
        patchedPath fingerprint specs root q ++
          ((if wrapsNode fingerprint specs parent then [4] else []) ++ [i])
  | root, parent, c, h, hi => by
    induction q generalizing root with
    | nil =>
      simp only [nodeAt, Option.some.injEq] at h
      subst h
      simp only [List.nil_append, patchedPath, hi]
    | cons j q ih =>
      simp only [nodeAt] at h
      cases hc : (directChildren root)[j]? with
      | none => rw [hc] at h; cases h
      | some d =>
        rw [hc] at h
        have e := ih d h
        have e1 : patchedPath fingerprint specs root (j :: (q ++ [i])) =
            (if wrapsNode fingerprint specs root then [4] else []) ++
              j :: patchedPath fingerprint specs d (q ++ [i]) := by
          simp only [patchedPath, hc]
        have e2 : patchedPath fingerprint specs root (j :: q) =
            (if wrapsNode fingerprint specs root then [4] else []) ++
              j :: patchedPath fingerprint specs d q := by
          simp only [patchedPath, hc]
        rw [List.cons_append, e1, e2, e, List.append_assoc, List.cons_append]

/-- C11. For every fingerprint function and specs map, an atom `n` without nested atoms
whose canonical form has a fingerprint that is a key of the map with a non-empty ID is
replaced by the call node `Cond(ID, ReasonTrue, ReasonFalse, n)`, whose canonical form is
`Cond("<ID>", "<ReasonTrue>", "<ReasonFalse>", <Format n>)` with the three strings escaped.
The replacement is in place: patching a parent that holds `n` in slot `i` gives the parent
rebuilt over its patched children (itself wrapped or not), with the same number of children,
the call node in slot `i`, and in every other slot what the patcher makes of the sibling on
its own, which is the sibling unchanged when the sibling holds no matching atom.
This holds at every depth of every tree: when `n` is the node at a position of a tree, the
patched tree holds the call node at the patched position, which is the position itself when
no node above `n` is an atom, and in general the position with one step into the fourth
argument of the wrapper below each wrapped node above `n`; the patched parent sits at the
patched position of the parent, and the call node in the parent's slot `i`. -/
theorem wrap_atom_in_place (fingerprint : String → String) (specs : Specs) (n : Node)
    (spec : ConditionSpec) (hatom : IsAtomNode n = true)
    (hnest : ∀ a ∈ (subnodes n).tail, IsAtomNode a = false)
    (hkey : specs.lookup (fingerprint (Format n)) = some spec) (hid : spec.ID ≠ "") :
    WrapAtomsWithCond n fingerprint specs =
      .call (.identifier "Cond")
        [.string spec.ID, .string spec.ReasonTrue, .string spec.ReasonFalse, n] ∧
    Format (WrapAtomsWithCond n fingerprint specs) =
      "Cond(\"" ++ escapeString spec.ID ++ "\", \"" ++ escapeString spec.ReasonTrue ++
        "\", \"" ++ escapeString spec.ReasonFalse ++ "\", " ++ Format n ++ ")" ∧
    (∀ (parent : Node) (i : Nat), (directChildren parent)[i]? = some n →
      ∃ parent',
        (WrapAtomsWithCond parent fingerprint specs = parent' ∨
          ∃ s : ConditionSpec, WrapAtomsWithCond parent fingerprint specs =
            .call (.identifier "Cond")
              [.string s.ID, .string s.ReasonTrue, .string s.ReasonFalse, parent']) ∧
        parent' = mapChildren (fun c => WrapAtomsWithCond c fingerprint specs) parent ∧
        (directChildren parent').length = (directChildren parent).length ∧
        (directChildren parent')[i]? =
          some (.call (.identifier "Cond")
            [.string spec.ID, .string spec.ReasonTrue, .string spec.ReasonFalse, n]) ∧
        ∀ (j : Nat) (c : Node), j ≠ i → (directChildren parent)[j]? = some c →
          (directChildren parent')[j]? = some (WrapAtomsWithCond c fingerprint specs) ∧
          (NoSpecHit fingerprint specs (subnodes c) → (directChildren parent')[j]? = some c)) ∧
    ∀ (root : Node) (path : List Nat), nodeAt root path = some n →
      nodeAt (WrapAtomsWithCond root fingerprint specs)
          (patchedPath fingerprint specs root path) =
        some (.call (.identifier "Cond")
          [.string spec.ID, .string spec.ReasonTrue, .string spec.ReasonFalse, n]) ∧
      path.Sublist (patchedPath fingerprint specs root path) ∧
      ((∀ k, k < path.length → ∀ a, nodeAt root (path.take k) = some a →
          IsAtomNode a = false) →
        nodeAt (WrapAtomsWithCond root fingerprint specs) path =
          some (.call (.identifier "Cond")
            [.string spec.ID, .string spec.ReasonTrue, .string spec.ReasonFalse, n])) ∧
      ∀ (q : List Nat) (i : Nat) (parent : Node), path = q ++ [i] →
        nodeAt root q = some parent →
        (directChildren parent)[i]? = some n ∧
        nodeAt (WrapAtomsWithCond root fingerprint specs)
            (patchedPath fingerprint specs root q) =
          some (WrapAtomsWithCond parent fingerprint specs) ∧
        patchedPath fingerprint specs root path =
          patchedPath fingerprint specs root q ++
            ((if wrapsNode fingerprint specs parent then [4] else []) ++ [i]) := by
  have hne : specs ≠ [] := by
    intro h0
    rw [h0] at hkey
    simp [List.lookup] at hkey
  have hW := WrapAtomsWithCond_eq_walk fingerprint specs hne
  have hfun : (fun c => WrapAtomsWithCond c fingerprint specs) = walk fingerprint specs :=
    funext hW
  have hwalk := walk_atom_without_nested fingerprint specs n spec hatom hnest hkey hid
  refine ⟨by rw [hW, hwalk]; rfl, by rw [hW, hwalk, format_condCall], ?_, ?_⟩
  · intro parent i hi
    refine ⟨mapChildren (walk fingerprint specs) parent, ?_, by rw [hfun], ?_, ?_, ?_⟩
    · rw [hW, walk_eq_wrapAtom_mapChildren]
      exact wrapAtom_cases fingerprint specs _
    · rw [directChildren_mapChildren, List.length_map]
    · rw [directChildren_mapChildren, List.getElem?_map, hi, Option.map_some', hwalk]
      rfl
    · intro j c _ hj
      have h1 : (directChildren (mapChildren (walk fingerprint specs) parent))[j]? =
          some (walk fingerprint specs c) := by
        rw [directChildren_mapChildren, List.getElem?_map, hj, Option.map_some']
      refine ⟨by rw [h1, hW], fun hno => ?_⟩
      rw [h1, walk_eq_self fingerprint specs c hno]
  · intro root path hat
    have hpos := nodeAt_walk fingerprint specs path root n hat
    rw [hwalk] at hpos
    refine ⟨by rw [hW]; exact hpos, sublist_patchedPath fingerprint specs path root n hat,
      fun hno => ?_, ?_⟩
    · rw [hW, ← patchedPath_eq_self fingerprint specs path root n hat hno]
      exact hpos
    · intro q i parent hq hp
      have hslot : (directChildren parent)[i]? = some n := by
        rw [← nodeAt_append q i root parent hp, ← hq]
        exact hat
      refine ⟨hslot, ?_, ?_⟩
      · rw [hW, hW]
        exact nodeAt_walk fingerprint specs q root parent hp
      · rw [hq]
        exact patchedPath_append fingerprint specs q i root parent n hp hslot

/-- The entry of `specsA` is found under the fingerprint of `a == 1`. -/
theorem specsA_lookup :
    specsA.lookup (Fingerprint (Format atomA)) =
      some { ID := "c_a", ReasonTrue := "A_IS_ONE", ReasonFalse := "A_NOT_ONE" } := by
  have h : Format atomA = "a == 1" := by decide
  rw [h]
  simp [specsA, List.lookup]

set_option maxRecDepth 100000 in
/-- C11 at the atom `a == 1`: as the whole tree and two levels down in `not (x || a == 1)`
with the specs map `specsA`, and below an atom that is wrapped itself in `a == 1 == b`. -/
theorem wrap_atom_in_place_witness :
    IsAtomNode atomA = true ∧ (∀ a ∈ (subnodes atomA).tail, IsAtomNode a = false) ∧
    specsA.lookup (Fingerprint (Format atomA)) =
      some { ID := "c_a", ReasonTrue := "A_IS_ONE", ReasonFalse := "A_NOT_ONE" } ∧
    WrapAtomsWithCond atomA Fingerprint specsA =
      .call (.identifier "Cond")
        [.string "c_a", .string "A_IS_ONE", .string "A_NOT_ONE", atomA] ∧
    Format (WrapAtomsWithCond atomA Fingerprint specsA) =
      "Cond(\"" ++ escapeString "c_a" ++ "\", \"" ++ escapeString "A_IS_ONE" ++
        "\", \"" ++ escapeString "A_NOT_ONE" ++ "\", " ++ Format atomA ++ ")" ∧
    "Cond(\"" ++ escapeString "c_a" ++ "\", \"" ++ escapeString "A_IS_ONE" ++
        "\", \"" ++ escapeString "A_NOT_ONE" ++ "\", " ++ Format atomA ++ ")" =
      "Cond(\"c_a\", \"A_IS_ONE\", \"A_NOT_ONE\", a == 1)" ∧
    nodeAt treeNotOrA [0, 1] = some atomA ∧
    nodeAt (WrapAtomsWithCond treeNotOrA Fingerprint specsA) [0, 1] =
      some (.call (.identifier "Cond")
        [.string "c_a", .string "A_IS_ONE", .string "A_NOT_ONE", atomA]) ∧
    Format treeNotOrA = "not x || a == 1" ∧
    Format (WrapAtomsWithCond treeNotOrA Fingerprint specsA) =
      "not x || Cond(\"c_a\", \"A_IS_ONE\", \"A_NOT_ONE\", a == 1)" ∧
    specsNestedA.lookup (id (Format atomA)) =
      some { ID := "c_a", ReasonTrue := "A_IS_ONE", ReasonFalse := "A_NOT_ONE" } ∧
    nodeAt treeNestedA [0] = some atomA ∧
    patchedPath id specsNestedA treeNestedA [0] = [4, 0] ∧
    nodeAt (WrapAtomsWithCond treeNestedA id specsNestedA) [4, 0] =
      some (.call (.identifier "Cond")
        [.string "c_a", .string "A_IS_ONE", .string "A_NOT_ONE", atomA]) ∧
    Format (WrapAtomsWithCond treeNestedA id specsNestedA) =
      "Cond(\"c_out\", \"OUT_TRUE\", \"OUT_FALSE\", Cond(\"c_a\", \"A_IS_ONE\", \"A_NOT_ONE\", a == 1) == b)" :=
  have hp : patchedPath id specsNestedA treeNestedA [0] = [4, 0] := by decide
  ⟨by decide, by decide, specsA_lookup,
    (wrap_atom_in_place Fingerprint specsA atomA _ (by decide) (by decide) specsA_lookup
      (by decide)).1,
    (wrap_atom_in_place Fingerprint specsA atomA _ (by decide) (by decide) specsA_lookup
      (by decide)).2.1,
    by decide, rfl,
    ((wrap_atom_in_place Fingerprint specsA atomA _ (by decide) (by decide) specsA_lookup
      (by decide)).2.2.2 treeNotOrA [0, 1] rfl).2.2.1 (by
        intro k hk a ha
        have hk2 : k < 2 := hk
        interval_cases k
        · cases ha; rfl
        · cases ha; rfl),
    by decide, by decide, by decide, rfl, hp,
    hp ▸ ((wrap_atom_in_place id specsNestedA atomA
      { ID := "c_a", ReasonTrue := "A_IS_ONE", ReasonFalse := "A_NOT_ONE" } (by decide)
      (by decide) (by decide) (by decide)).2.2.2 treeNestedA [0] rfl).1,
    by decide⟩

/-- C12 (the code at the failing input). Patching `a == 1` with `specsA` gives
`Cond("c_a", "A_IS_ONE", "A_NOT_ONE", a == 1)`; patching that tree again wraps the atom in
the fourth argument a second time, so the second result differs from the first. -/
theorem wrap_twice_wraps_again :
    WrapAtomsWithCond atomA Fingerprint specsA =
      .call (.identifier "Cond")
        [.string "c_a", .string "A_IS_ONE", .string "A_NOT_ONE", atomA] ∧
    WrapAtomsWithCond
        (.call (.identifier "Cond")
          [.string "c_a", .string "A_IS_ONE", .string "A_NOT_ONE", atomA]) Fingerprint specsA =
      .call (.identifier "Cond")
        [.string "c_a", .string "A_IS_ONE", .string "A_NOT_ONE",
         .call (.identifier "Cond")
           [.string "c_a", .string "A_IS_ONE", .string "A_NOT_ONE", atomA]] ∧
    WrapAtomsWithCond (WrapAtomsWithCond atomA Fingerprint specsA) Fingerprint specsA ≠
      WrapAtomsWithCond atomA Fingerprint specsA ∧
    Format (WrapAtomsWithCond (WrapAtomsWithCond atomA Fingerprint specsA) Fingerprint specsA) =
      "Cond(\"c_a\", \"A_IS_ONE\", \"A_NOT_ONE\", Cond(\"c_a\", \"A_IS_ONE\", \"A_NOT_ONE\", a == 1))" := by
  have hne : specsA ≠ [] := by simp [specsA]
  have h1 : walk Fingerprint specsA atomA =
      condCall { ID := "c_a", ReasonTrue := "A_IS_ONE", ReasonFalse := "A_NOT_ONE" } atomA :=
    walk_atom_without_nested Fingerprint specsA atomA _ (by decide) (by decide) specsA_lookup
      (by decide)
  have h2 := walk_condCall Fingerprint specsA
    { ID := "c_a", ReasonTrue := "A_IS_ONE", ReasonFalse := "A_NOT_ONE" } atomA
  rw [h1] at h2
  simp only [WrapAtomsWithCond_eq_walk Fingerprint specsA hne, h1]
  refine ⟨rfl, h2, ?_, ?_⟩
  · rw [h2]
    intro h
    have := congrArg Format h
    revert this
    decide
  · rw [h2]
    decide

/-! ## Spec attribution -/

theorem replaceAll_of_not_mem (s : String) (old : Char) (new : String)
    (h : old ∉ s.data) : replaceAll s old new = s := by
  apply String.ext
  unfold replaceAll
  rw [String.data_join]
  generalize s.data = l at h
  induction l with
  | nil => rfl
  | cons c cs ih =>
    have hc : c ≠ old := fun e => h (by rw [e]; exact List.mem_cons_self _ _)
    have hcs : old ∉ cs := fun e => h (List.mem_cons_of_mem _ e)
    simp only [List.map_cons, hc, if_false, List.flatten_cons, ih hcs]
    rfl

/-- A string without backslash, double quote, newline, tab and carriage return is its own
escaped form. -/
theorem escapeString_of_plain (s : String)
    (h : ∀ c ∈ s.data, c ≠ '\\' ∧ c ≠ '"' ∧ c ≠ '\n' ∧ c ≠ '\t' ∧ c ≠ '\r') :
    escapeString s = s := by
  unfold escapeString
  simp only
  rw [replaceAll_of_not_mem s '\\' _ (fun hm => (h _ hm).1 rfl),
    replaceAll_of_not_mem s '"' _ (fun hm => (h _ hm).2.1 rfl),
    replaceAll_of_not_mem s '\n' _ (fun hm => (h _ hm).2.2.1 rfl),
    replaceAll_of_not_mem s '\t' _ (fun hm => (h _ hm).2.2.2.1 rfl),
    replaceAll_of_not_mem s '\r' _ (fun hm => (h _ hm).2.2.2.2 rfl)]

theorem stringsIndex_of_isPrefix (pat s : List Char) (hs : s ≠ [])
    (h : pat.isPrefixOf s = true) : stringsIndex pat s = some 0 := by
  cases s with
  | nil => exact absurd rfl hs
  | cons c cs => simp [stringsIndex, h]

theorem stringsIndex_quote (xs ys : List Char) (h : '"' ∉ xs) :
    stringsIndex ['"'] (xs ++ '"' :: ys) = some xs.length := by
  induction xs with
  | nil => simp [stringsIndex, List.isPrefixOf]
  | cons c cs ih =>
    have hc : ¬ ('"' = c) := fun e => h (by rw [← e]; exact List.mem_cons_self _ _)
    have hcs : '"' ∉ cs := fun e => h (List.mem_cons_of_mem _ e)
    simp [stringsIndex, List.isPrefixOf, hc, ih hcs]

theorem extract_of_plain (id : String) (rest : String)
    (h : '"' ∉ id.data) :
    ExtractFirstStringArg ("Cond(\"" ++ id ++ "\"" ++ rest) = id := by
  unfold ExtractFirstStringArg
  have hd : ("Cond(\"" ++ id ++ "\"" ++ rest).data =
      "Cond(\"".data ++ (id.data ++ '"' :: rest.data) := by
    simp [String.data_append]
  rw [hd, stringsIndex_of_isPrefix _ _ (by simp) (by simp [List.isPrefixOf])]
  have hdrop : List.drop (0 + "Cond(\"".length) ("Cond(\"".data ++ (id.data ++ '"' :: rest.data)) =
      id.data ++ '"' :: rest.data := rfl
  simp only [hdrop]
  rw [stringsIndex_quote _ _ h]
  simp

/-- C13 (amended). For every non-empty ID without backslash, double quote, newline, tab and
carriage return, and all reason strings, `ExtractFirstStringArg` applied to the canonical
text of the wrapper `Cond(ID, ReasonTrue, ReasonFalse, atom)` returns exactly `ID`, so that a
chunk with that text receives the ID and the reason of the recorder entry stored under
`ID`. -/
theorem extract_id_of_plain (spec : ConditionSpec) (atom : Node) (hne : spec.ID ≠ "")
    (hplain : ∀ c ∈ spec.ID.data, c ≠ '\\' ∧ c ≠ '"' ∧ c ≠ '\n' ∧ c ≠ '\t' ∧ c ≠ '\r') :
    ExtractFirstStringArg
        (Format (.call (.identifier "Cond")
          [.string spec.ID, .string spec.ReasonTrue, .string spec.ReasonFalse, atom])) =
      spec.ID ∧
    ∀ (seen : Seen) (rr : Recorded) (c : EvalResult),
      c.Expr = Format (.call (.identifier "Cond")
        [.string spec.ID, .string spec.ReasonTrue, .string spec.ReasonFalse, atom]) →
      seen.lookup spec.ID = some rr →
      enrich seen c = { c with ID := rr.ID, Reason := rr.Reason } := by
  have hf := format_condCall spec atom
  rw [escapeString_of_plain spec.ID hplain] at hf
  have hx : ExtractFirstStringArg (Format (condCall spec atom)) = spec.ID := by
    rw [hf]
    simp only [String.append_assoc]
    have := extract_of_plain spec.ID
      (", \"" ++ (escapeString spec.ReasonTrue ++ ("\", \"" ++
        (escapeString spec.ReasonFalse ++ ("\", " ++ (Format atom ++ ")"))))))
      (fun hm => (hplain _ hm).2.1 rfl)
    simpa only [String.append_assoc] using this
  refine ⟨hx, fun seen rr c hc hl => ?_⟩
  have hp : "Cond(".data.isPrefixOf c.Expr.data = true := by
    rw [hc]
    change "Cond(".data.isPrefixOf (Format (condCall spec atom)).data = true
    rw [hf]
    simp [String.data_append, List.isPrefixOf]
  unfold enrich
  rw [hc]
  change (if (!"Cond(".data.isPrefixOf (Format (condCall spec atom)).data) = true then c
    else _) = _
  rw [hc] at hp
  change "Cond(".data.isPrefixOf (Format (condCall spec atom)).data = true at hp
  simp only [hp, Bool.not_true, Bool.false_eq_true, if_false]
  change (if ExtractFirstStringArg (Format (condCall spec atom)) = "" then c else _) = _
  simp only [hx, hne, if_false]
  have hx' : ExtractFirstStringArg (Format (.call (.identifier "Cond")
      [.string spec.ID, .string spec.ReasonTrue, .string spec.ReasonFalse, atom])) =
      spec.ID := hx
  rw [hx', hl]

/-- C13 at the spec of `specsA`, whose ID is `c_a`. -/
theorem extract_id_of_plain_witness :
    ("c_a" : String) ≠ "" ∧
    (∀ c ∈ ("c_a" : String).data, c ≠ '\\' ∧ c ≠ '"' ∧ c ≠ '\n' ∧ c ≠ '\t' ∧ c ≠ '\r') ∧
    ExtractFirstStringArg
        (Format (.call (.identifier "Cond")
          [.string "c_a", .string "A_IS_ONE", .string "A_NOT_ONE", atomA])) = "c_a" :=
  ⟨by decide, by decide,
    (extract_id_of_plain { ID := "c_a", ReasonTrue := "A_IS_ONE", ReasonFalse := "A_NOT_ONE" }
      atomA (by decide) (by decide)).1⟩

/-- C13 (counterexample). For the ID `a"b` the canonical text of the wrapper is
`Cond("a\"b", "YES", "NO", a == 1)`; `ExtractFirstStringArg` stops at the escaped quote and
returns `a\` instead of the ID, and the chunk gets no ID from a recorder entry stored under
the ID. -/
theorem extract_id_with_quote :
    ExtractFirstStringArg
        (Format (.call (.identifier "Cond")
          [.string "a\"b", .string "YES", .string "NO", atomA])) = "a\\" ∧
    ExtractFirstStringArg
        (Format (.call (.identifier "Cond")
          [.string "a\"b", .string "YES", .string "NO", atomA])) ≠ "a\"b" ∧
    Format (.call (.identifier "Cond")
          [.string "a\"b", .string "YES", .string "NO", atomA]) =
      "Cond(\"a\\\"b\", \"YES\", \"NO\", a == 1)" ∧
    (enrich [("a\"b", { ID := "a\"b", Value := true, Reason := "YES" })]
        { Fingerprint := "", Expr := Format (.call (.identifier "Cond")
            [.string "a\"b", .string "YES", .string "NO", atomA]) }).ID = "" := by
  decide

/-! ## Member access -/

/-- C19 (amended). For every member-access node with base `b` and property `p`: when `p` is
a string literal with an identifier-like value `name` and the node is not a method access,
`Format` renders `b.name` (`b?.name` when optional); when `p` is not a string literal, or the
node is a method access, it renders `b[Format p]` (`b?.[Format p]` when optional). -/
theorem format_member (base property : Node) (optional method : Bool) :
    (∀ name : String, property = .string name → method = false → isIdentLike name = true →
      Format (.member base property optional method) =
        Format base ++ (if optional then "?." else ".") ++ name) ∧
    ((∀ name : String, property ≠ .string name) ∨ method = true →
      Format (.member base property optional method) =
        Format base ++ (if optional then "?.[" else "[") ++ Format property ++ "]") := by
  constructor
  · intro name hp hm _
    subst hp
    subst hm
    cases optional <;> simp [Format]
  · intro h
    cases optional <;> cases method <;> cases property <;>
      simp_all [Format]

/-- C19 (counterexample). The string properties `first name`, the empty string and `a.b`
are not identifier-like and are rendered after a dot, unquoted; the identifier-like
property `Name` of a method access is rendered quoted inside brackets. -/
theorem format_member_not_identifier_like :
    isIdentLike "first name" = false ∧
    Format (.member (.identifier "user") (.string "first name") false false) =
      "user.first name" ∧
    isIdentLike "" = false ∧
    Format (.member (.identifier "user") (.string "") false false) = "user." ∧
    isIdentLike "a.b" = false ∧
    Format (.member (.identifier "user") (.string "a.b") true false) = "user?.a.b" ∧
    isIdentLike "Name" = true ∧
    Format (.member (.identifier "user") (.string "Name") false true) = "user[\"Name\"]" := by
  decide

/-- C19 at `user.Group` and at `tweets?.[0]`. -/
theorem format_member_witness :
    isIdentLike "Group" = true ∧
    Format (.member (.identifier "user") (.string "Group") false false) =
      Format (.identifier "user") ++ (if false then "?." else ".") ++ "Group" ∧
    Format (.member (.identifier "user") (.string "Group") false false) = "user.Group" ∧
    ((∀ name : String, Node.integer 0 ≠ .string name) ∨ false = true) ∧
    Format (.member (.identifier "tweets") (.integer 0) true false) =
      Format (.identifier "tweets") ++ (if true then "?.[" else "[") ++
        Format (.integer 0) ++ "]" ∧
    Format (.member (.identifier "tweets") (.integer 0) true false) = "tweets?.[0]" :=
  ⟨by decide,
    (format_member (.identifier "user") (.string "Group") false false).1 "Group" rfl rfl
      (by decide),
    by decide, Or.inl (fun _ h => by cases h),
    (format_member (.identifier "tweets") (.integer 0) true false).2
      (Or.inl (fun _ h => by cases h)),
    by decide⟩

/-! ## Grouping -/

/-- C20 (the code at the failing input). The trees of `(a || b) && c` and `a || b && c` both
format to `a || b && c` and share a fingerprint; tracing `(a || b) && c` on
`{a: true, b: false, c: false}` therefore evaluates the text `a || b && c` and returns
`Final = true`, while the input itself evaluates to `false`. -/
theorem format_drops_grouping :
    Format treeOrAnd = "a || b && c" ∧ Format treeAndOr = "a || b && c" ∧
    Format treeOrAnd = Format treeAndOr ∧
    Fingerprint (Format treeOrAnd) = Fingerprint (Format treeAndOr) ∧
    (Trace engGrouping tracerAtomic "(a || b) && c" []).Source = "a || b && c" ∧
    (Trace engGrouping tracerAtomic "(a || b) && c" []).Final = .bool true ∧
    evalDirect engGrouping tracerAtomic "(a || b) && c" = (.bool false, "") := by
  refine ⟨by decide, by decide, by decide, ?_, by decide, by decide, by decide⟩
  rw [show Format treeOrAnd = Format treeAndOr by decide]

/-! ## escapeString -/

theorem replaceAll_data (s : String) (old : Char) (new : String) :
    (replaceAll s old new).data = s.data.flatMap (fun c => if c = old then new.data else [c]) := by
  unfold replaceAll
  rw [String.data_join, List.flatMap_def, List.map_map]
  congr 1
  apply List.map_congr_left
  intro c _
  by_cases h : c = old <;> simp [h, String.singleton]

theorem flatMap_flatMap_chars (l : List Char) (f g : Char → List Char) :
    (l.flatMap f).flatMap g = l.flatMap (fun c => (f c).flatMap g) := by
  induction l with
  | nil => rfl
  | cons c cs ih => simp [List.flatMap_cons, List.flatMap_append, ih]

/-- The five replacements, composed on one character, are the single-pass substitution. -/
theorem escape_steps_char (c : Char) :
    (((([c].flatMap (fun c => if c = '\\' then "\\\\".data else [c])).flatMap
        (fun c => if c = '"' then "\\\"".data else [c])).flatMap
        (fun c => if c = '\n' then "\\n".data else [c])).flatMap
        (fun c => if c = '\t' then "\\t".data else [c])).flatMap
        (fun c => if c = '\r' then "\\r".data else [c]) = escapeChar c := by
  unfold escapeChar
  by_cases h1 : c = '\\'
  · subst h1; decide
  · by_cases h2 : c = '"'
    · subst h2; decide
    · by_cases h3 : c = '\n'
      · subst h3; decide
      · by_cases h4 : c = '\t'
        · subst h4; decide
        · by_cases h5 : c = '\r'
          · subst h5; decide
          · simp [h1, h2, h3, h4, h5]

theorem escapeString_data (s : String) :
    (escapeString s).data = s.data.flatMap escapeChar := by
  unfold escapeString
  simp only [replaceAll_data]
  generalize s.data = l
  induction l with
  | nil => rfl
  | cons c cs ih =>
    have hc := escape_steps_char c
    simp only [List.flatMap_cons, List.flatMap_append, List.flatMap_nil, List.append_nil]
      at hc ih ⊢
    rw [ih, hc]

/-- Reading back what the single pass wrote gives the text it was written from. -/
theorem unescapeChars_escape (l : List Char) :
    ∀ fuel, (l.flatMap escapeChar).length ≤ fuel →
      unescapeChars (fuel + 1) (l.flatMap escapeChar) = l := by
  induction l with
  | nil => intro fuel _; rfl
  | cons c cs ih =>
    intro fuel hf
    rw [List.flatMap_cons] at hf ⊢
    by_cases hsp : c = '\\' ∨ c = '"' ∨ c = '\n' ∨ c = '\t' ∨ c = '\r'
    · have h2 : ∃ d, escapeChar c = ['\\', d] ∧ unescapeChar d = c := by
        rcases hsp with h | h | h | h | h <;> subst h <;> exact ⟨_, rfl, rfl⟩
      obtain ⟨d, hd, hu⟩ := h2
      rw [hd] at hf ⊢
      simp only [List.length_append, List.length_cons, List.length_nil] at hf
      obtain ⟨k, rfl⟩ : ∃ k, fuel = k + 1 := ⟨fuel - 1, by omega⟩
      simp only [List.cons_append, List.nil_append, unescapeChars, if_true, hu]
      change c :: unescapeChars (k + 1) (cs.flatMap escapeChar) = c :: cs
      rw [ih k (by omega)]
    · simp only [not_or] at hsp
      obtain ⟨h1, h2, h3, h4, h5⟩ := hsp
      have he : escapeChar c = [c] := by simp [escapeChar, h1, h2, h3, h4, h5]
      rw [he] at hf ⊢
      simp only [List.length_append, List.length_cons, List.length_nil] at hf
      obtain ⟨k, rfl⟩ : ∃ k, fuel = k + 1 := ⟨fuel - 1, by omega⟩
      cases hr : cs.flatMap escapeChar with
      | nil =>
        have hcs : cs = [] := by
          have := ih k (by rw [hr]; simp)
          rw [hr] at this
          simpa [unescapeChars] using this.symm
        simp [unescapeChars, hcs]
      | cons d rest =>
        have := ih k (by omega)
        rw [hr] at this
        simp only [List.cons_append, List.nil_append, unescapeChars, h1, if_false, this]

theorem QuotesEscaped.append {w l : List Char} (hw : QuotesEscaped w) (hl : QuotesEscaped l) :
    QuotesEscaped (w ++ l) := by
  intro i hi
  by_cases h : i < w.length
  · rw [List.getElem?_append_left h] at hi
    obtain ⟨h0, h1⟩ := hw i hi
    exact ⟨h0, by rw [List.getElem?_append_left (by omega)]; exact h1⟩
  · rw [List.getElem?_append_right (by omega)] at hi
    obtain ⟨h0, h1⟩ := hl _ hi
    refine ⟨by omega, ?_⟩
    rw [List.getElem?_append_right (by omega)]
    have : i - 1 - w.length = i - w.length - 1 := by omega
    rw [this]
    exact h1

theorem escapeChar_quotesEscaped (c : Char) : QuotesEscaped (escapeChar c) := by
  intro i hi
  unfold escapeChar at hi ⊢
  by_cases h1 : c = '\\'
  · subst h1
    match i with
    | 0 => simp at hi
    | 1 => simp at hi
    | _ + 2 => simp at hi
  · by_cases h2 : c = '"'
    · subst h2
      match i with
      | 0 => simp at hi
      | 1 => simp
      | _ + 2 => simp at hi
    · by_cases h3 : c = '\n'
      · subst h3
        match i with
        | 0 => simp at hi
        | 1 => simp at hi
        | _ + 2 => simp at hi
      · by_cases h4 : c = '\t'
        · subst h4
          match i with
          | 0 => simp at hi
          | 1 => simp at hi
          | _ + 2 => simp at hi
        · by_cases h5 : c = '\r'
          · subst h5
            match i with
            | 0 => simp at hi
            | 1 => simp at hi
            | _ + 2 => simp at hi
          · simp only [h1, h2, h3, h4, h5, if_false] at hi
            match i with
            | 0 =>
              simp only [List.getElem?_cons_zero, Option.some.injEq] at hi
              exact absurd hi h2
            | _ + 1 => simp at hi

theorem flatMap_escapeChar_quotesEscaped (l : List Char) :
    QuotesEscaped (l.flatMap escapeChar) := by
  induction l with
  | nil => intro i hi; simp at hi
  | cons c cs ih =>
    rw [List.flatMap_cons]
    exact (escapeChar_quotesEscaped c).append ih

theorem escapeChar_no_control (c d : Char) (h : d ∈ escapeChar c) :
    d ≠ '\n' ∧ d ≠ '\t' ∧ d ≠ '\r' := by
  unfold escapeChar at h
  by_cases h1 : c = '\\'
  · rw [if_pos h1] at h
    rcases List.mem_pair.mp h with h | h <;> subst h <;> decide
  · rw [if_neg h1] at h
    by_cases h2 : c = '"'
    · rw [if_pos h2] at h
      rcases List.mem_pair.mp h with h | h <;> subst h <;> decide
    · rw [if_neg h2] at h
      by_cases h3 : c = '\n'
      · rw [if_pos h3] at h
        rcases List.mem_pair.mp h with h | h <;> subst h <;> decide
      · rw [if_neg h3] at h
        by_cases h4 : c = '\t'
        · rw [if_pos h4] at h
          rcases List.mem_pair.mp h with h | h <;> subst h <;> decide
        · rw [if_neg h4] at h
          by_cases h5 : c = '\r'
          · rw [if_pos h5] at h
            rcases List.mem_pair.mp h with h | h <;> subst h <;> decide
          · rw [if_neg h5, List.mem_singleton] at h
            subst h
            exact ⟨h3, h4, h5⟩

/-- C23. For every string, `escapeString`, the five successive replacements, equals the
single-pass per-character substitution (backslash to `\\`, double quote to `\"`, newline to
`\n`, tab to `\t`, carriage return to `\r`, every other character to itself).  Consequently
it is injective, its output read back pair by pair gives the input, and its output holds no
raw newline, tab or carriage return and no double quote without a backslash right before
it. -/
theorem escapeString_single_pass (s : String) :
    escapeString s = escapeSinglePass s ∧
    (∀ s2 : String, escapeString s = escapeString s2 → s = s2) ∧
    String.mk (unescapeChars ((escapeString s).length + 1) (escapeString s).data) = s ∧
    (∀ c ∈ (escapeString s).data, c ≠ '\n' ∧ c ≠ '\t' ∧ c ≠ '\r') ∧
    (∀ i, (escapeString s).data[i]? = some '"' →
      0 < i ∧ (escapeString s).data[i - 1]? = some '\\') := by
  have hback : ∀ t : String,
      unescapeChars ((escapeString t).length + 1) (escapeString t).data = t.data := by
    intro t
    rw [String.length, escapeString_data]
    exact unescapeChars_escape t.data _ (Nat.le_refl _)
  refine ⟨String.ext (escapeString_data s), fun s2 h => ?_, ?_, ?_, ?_⟩
  · apply String.ext
    rw [← hback s, ← hback s2, h]
  · rw [hback s]
  · intro c hc
    rw [escapeString_data] at hc
    obtain ⟨a, -, ha⟩ := List.mem_flatMap.mp hc
    exact escapeChar_no_control a c ha
  · rw [escapeString_data]
    exact flatMap_escapeChar_quotesEscaped s.data

/-! ## Induction over the children of a node -/

mutual
theorem childInduction {P : Node → Prop} (h : ∀ n, (∀ c ∈ directChildren n, P c) → P n) :
    ∀ n, P n
  | .unary _ node => h _ (fun c hc => by
      rw [List.mem_singleton.mp hc]; exact childInduction h node)
  | .binary _ left right => h _ (fun c hc => by
      rcases List.mem_pair.mp hc with e | e
      · rw [e]; exact childInduction h left
      · rw [e]; exact childInduction h right)
  | .conditional cond exp1 exp2 => h _ (fun c hc => by
      simp only [directChildren, List.mem_cons, List.mem_singleton, List.mem_nil_iff,
        or_false] at hc
      rcases hc with e | e | e
      · rw [e]; exact childInduction h cond
      · rw [e]; exact childInduction h exp1
      · rw [e]; exact childInduction h exp2)
  | .call callee arguments => h _ (fun c hc => by
      rcases List.mem_cons.mp hc with e | e
      · rw [e]; exact childInduction h callee
      · exact childInductionList h arguments c e)
  | .builtin _ arguments map => h _ (fun c hc => by
      rcases List.mem_append.mp hc with e | e
      · exact childInductionOpt h map c (Option.mem_toList.mp e)
      · exact childInductionList h arguments c e)
  | .member node property _ _ => h _ (fun c hc => by
      rcases List.mem_pair.mp hc with e | e
      · rw [e]; exact childInduction h node
      · rw [e]; exact childInduction h property)
  | .slice node sfrom sto => h _ (fun c hc => by
      rcases List.mem_cons.mp hc with e | e
      · rw [e]; exact childInduction h node
      · rcases List.mem_append.mp e with e | e
        · exact childInductionOpt h sfrom c (Option.mem_toList.mp e)
        · exact childInductionOpt h sto c (Option.mem_toList.mp e))
  | .array nodes => h _ (fun c hc => childInductionList h nodes c hc)
  | .map pairs => h _ (fun c hc => childInductionList h pairs c hc)
  | .pair key value => h _ (fun c hc => by
      rcases List.mem_pair.mp hc with e | e
      · rw [e]; exact childInduction h key
      · rw [e]; exact childInduction h value)
  | .sequence nodes => h _ (fun c hc => childInductionList h nodes c hc)
  | .variableDeclarator _ value expr => h _ (fun c hc => by
      rcases List.mem_pair.mp hc with e | e
      · rw [e]; exact childInduction h value
      · rw [e]; exact childInduction h expr)
  | .predicate node => h _ (fun c hc => by
      rw [List.mem_singleton.mp hc]; exact childInduction h node)
  | .chain node => h _ (fun c hc => by
      rw [List.mem_singleton.mp hc]; exact childInduction h node)
  | .nilNode => h _ (fun _ hc => by cases hc)
  | .identifier _ => h _ (fun _ hc => by cases hc)
  | .integer _ => h _ (fun _ hc => by cases hc)
  | .float _ => h _ (fun _ hc => by cases hc)
  | .bool _ => h _ (fun _ hc => by cases hc)
  | .string _ => h _ (fun _ hc => by cases hc)
  | .constant _ => h _ (fun _ hc => by cases hc)
  | .pointer _ => h _ (fun _ hc => by cases hc)
theorem childInductionList {P : Node → Prop}
    (h : ∀ n, (∀ c ∈ directChildren n, P c) → P n) : ∀ (l : List Node), ∀ c ∈ l, P c
  | [], _, hc => by cases hc
  | n :: ns, c, hc => by
    rcases List.mem_cons.mp hc with e | e
    · rw [e]; exact childInduction h n
    · exact childInductionList h ns c e
theorem childInductionOpt {P : Node → Prop}
    (h : ∀ n, (∀ c ∈ directChildren n, P c) → P n) : ∀ (o : Option Node), ∀ c ∈ o, P c
  | none, _, hc => by cases hc
  | some n, c, hc => by
    have e : c = n := by
      simp only [Option.mem_def, Option.some.injEq] at hc
      exact hc.symm
    rw [e]
    exact childInduction h n
end

/-! ## The recursive functions, read off the children -/

theorem collectAtomsList_eq (l : List Node) : collectAtomsList l = l.flatMap collectAtoms := by
  induction l with
  | nil => rfl
  | cons n ns ih => simp [collectAtomsList, ih]

theorem collectAtomsOpt_eq (o : Option Node) :
    collectAtomsOpt o = o.toList.flatMap collectAtoms := by
  cases o <;> simp [collectAtomsOpt]

theorem subnodesList_eq (l : List Node) : subnodesList l = l.flatMap subnodes := by
  induction l with
  | nil => rfl
  | cons n ns ih => simp [subnodesList, ih]

theorem subnodesOpt_eq (o : Option Node) : subnodesOpt o = o.toList.flatMap subnodes := by
  cases o <;> simp [subnodesOpt]

theorem outermostAtomsList_eq (inside : Bool) (l : List Node) :
    outermostAtomsList inside l = l.flatMap (outermostAtoms inside) := by
  induction l with
  | nil => rfl
  | cons n ns ih => simp [outermostAtomsList, ih]

theorem outermostAtomsOpt_eq (inside : Bool) (o : Option Node) :
    outermostAtomsOpt inside o = o.toList.flatMap (outermostAtoms inside) := by
  cases o <;> simp [outermostAtomsOpt]

/-- What `collectAtoms` does at a node: stop at an atom, else collect under the children,
left to right. -/
theorem collectAtoms_children (n : Node) :
    collectAtoms n =
      if isAtomic n then [n] else (directChildren n).flatMap collectAtoms := by
  cases n <;>
    simp [collectAtoms, directChildren, isAtomic, IsAtomNode, IsCondCall, collectAtomsList_eq,
      collectAtomsOpt_eq, List.flatMap_append]

theorem subnodes_children (n : Node) :
    subnodes n = n :: (directChildren n).flatMap subnodes := by
  cases n <;>
    simp [subnodes, directChildren, subnodesList_eq, subnodesOpt_eq, List.flatMap_append]

theorem outermostAtoms_children (inside : Bool) (n : Node) :
    outermostAtoms inside n =
      (if !inside && isAtomic n then [n] else []) ++
        (directChildren n).flatMap (outermostAtoms (inside || isAtomic n)) := by
  cases n <;>
    simp [outermostAtoms, directChildren, isAtomic, IsAtomNode, IsCondCall,
      outermostAtomsList_eq, outermostAtomsOpt_eq, List.flatMap_append]

/-! ## CollectAtoms returns the outermost atoms -/

theorem flatMap_eq_nil_of_forall {f : Node → List Node} (l : List Node)
    (h : ∀ c ∈ l, f c = []) : l.flatMap f = [] := by
  induction l with
  | nil => rfl
  | cons c cs ih =>
    rw [List.flatMap_cons, h c (List.mem_cons_self _ _),
      ih (fun d hd => h d (List.mem_cons_of_mem _ hd))]
    rfl

theorem flatMap_congr_of_forall {f g : Node → List Node} (l : List Node)
    (h : ∀ c ∈ l, f c = g c) : l.flatMap f = l.flatMap g := by
  induction l with
  | nil => rfl
  | cons c cs ih =>
    rw [List.flatMap_cons, List.flatMap_cons, h c (List.mem_cons_self _ _),
      ih (fun d hd => h d (List.mem_cons_of_mem _ hd))]

theorem flatMap_sublist_of_forall {f g : Node → List Node} (l : List Node)
    (h : ∀ c ∈ l, (f c).Sublist (g c)) : (l.flatMap f).Sublist (l.flatMap g) := by
  induction l with
  | nil => exact List.Sublist.refl _
  | cons c cs ih =>
    rw [List.flatMap_cons, List.flatMap_cons]
    exact (h c (List.mem_cons_self _ _)).append
      (ih (fun d hd => h d (List.mem_cons_of_mem _ hd)))

/-- Below an atom nothing is listed. -/
theorem outermostAtoms_inside (n : Node) : outermostAtoms true n = [] := by
  induction n using childInduction with
  | h n ih =>
    rw [outermostAtoms_children]
    simp only [Bool.not_true, Bool.false_and, Bool.false_eq_true, if_false, Bool.true_or,
      List.nil_append]
    exact flatMap_eq_nil_of_forall _ ih

theorem collectAtoms_eq_outermostAtoms (n : Node) : collectAtoms n = outermostAtoms false n := by
  induction n using childInduction with
  | h n ih =>
    rw [collectAtoms_children, outermostAtoms_children]
    cases ha : isAtomic n
    · simp only [Bool.false_eq_true, if_false, Bool.not_false, Bool.and_false, Bool.or_false,
        List.nil_append]
      exact flatMap_congr_of_forall _ ih
    · simp only [if_true, Bool.not_false, Bool.and_true, Bool.or_true,
        List.singleton_append]
      rw [flatMap_eq_nil_of_forall _ (fun c _ => outermostAtoms_inside c)]

theorem collectAtoms_isAtomic (n : Node) : ∀ a ∈ collectAtoms n, isAtomic a = true := by
  induction n using childInduction with
  | h n ih =>
    intro a ha
    rw [collectAtoms_children] at ha
    cases hn : isAtomic n
    · simp only [hn, Bool.false_eq_true, if_false, List.mem_flatMap] at ha
      obtain ⟨c, hc, hac⟩ := ha
      exact ih c hc a hac
    · simp only [hn, if_true, List.mem_singleton] at ha
      rw [ha]
      exact hn

theorem collectAtoms_sublist (n : Node) : (collectAtoms n).Sublist (subnodes n) := by
  induction n using childInduction with
  | h n ih =>
    rw [collectAtoms_children, subnodes_children]
    cases hn : isAtomic n
    · simp only [Bool.false_eq_true, if_false]
      exact (flatMap_sublist_of_forall _ ih).cons _
    · simp only [if_true]
      exact (List.nil_sublist _).cons₂ _

theorem collectAtoms_eq_nil_iff (n : Node) :
    collectAtoms n = [] ↔ ∀ a ∈ subnodes n, isAtomic a = false := by
  induction n using childInduction with
  | h n ih =>
    rw [collectAtoms_children, subnodes_children]
    cases hn : isAtomic n
    · simp only [Bool.false_eq_true, if_false, List.flatMap_eq_nil_iff, List.mem_cons,
        List.mem_flatMap]
      constructor
      · intro h a ha
        rcases ha with rfl | ⟨c, hc, hac⟩
        · exact hn
        · exact (ih c hc).mp (h c hc) a hac
      · intro h c hc
        exact (ih c hc).mpr (fun a hac => h a (Or.inr ⟨c, hc, hac⟩))
    · simp only [if_true, List.mem_cons]
      constructor
      · intro h; cases h
      · intro h
        have := h n (Or.inl rfl)
        rw [hn] at this
        cases this

theorem isAtomic_iff (a : Node) :
    isAtomic a = true ↔
      (∃ operator left right, a = .binary operator left right ∧
        operator ∈ ["==", "!=", "<", "<=", ">", ">=", "in", "matches", "contains",
          "startsWith", "endsWith"]) ∨
      (∃ arguments, a = .call (.identifier "Cond") arguments) := by
  cases a with
  | binary operator left right => simp [isAtomic, IsAtomNode, IsCondCall, or_assoc]
  | call callee arguments => cases callee <;> simp [isAtomic, IsAtomNode, IsCondCall]
  | _ => simp [isAtomic, IsAtomNode, IsCondCall]

/-- C21. For every tree, `CollectAtoms` returns, in left-to-right order, exactly the outermost
atoms: the nodes met walking the tree left to right that are atoms with no atom above them.
Every returned node is a binary node with one of the eleven comparison, membership, pattern
and string operators or a call to `Cond`; the returned list is a sublist of the nodes of the
tree in traversal order; under a returned node nothing more is collected; a chain wrapper is
looked through; and the result is empty exactly when the tree holds no such node at any
depth. -/
theorem collectAtoms_outermost (n : Node) :
    CollectAtoms n = outermostAtoms false n ∧
    (∀ a ∈ CollectAtoms n,
      (∃ operator left right, a = .binary operator left right ∧
        operator ∈ ["==", "!=", "<", "<=", ">", ">=", "in", "matches", "contains",
          "startsWith", "endsWith"]) ∨
      (∃ arguments, a = .call (.identifier "Cond") arguments)) ∧
    (CollectAtoms n).Sublist (subnodes n) ∧
    (∀ a ∈ CollectAtoms n, CollectAtoms a = [a] ∧
      ∀ c ∈ directChildren a, outermostAtoms true c = []) ∧
    CollectAtoms (.chain n) = CollectAtoms n ∧
    (CollectAtoms n = [] ↔
      ∀ a ∈ subnodes n,
        ¬ ((∃ operator left right, a = .binary operator left right ∧
            operator ∈ ["==", "!=", "<", "<=", ">", ">=", "in", "matches", "contains",
              "startsWith", "endsWith"]) ∨
          (∃ arguments, a = .call (.identifier "Cond") arguments))) := by
  refine ⟨collectAtoms_eq_outermostAtoms n,
    fun a ha => (isAtomic_iff a).mp (collectAtoms_isAtomic n a ha),
    collectAtoms_sublist n,
    fun a ha => ⟨by
      unfold CollectAtoms
      rw [collectAtoms_children, collectAtoms_isAtomic n a ha]
      rfl, fun c _ => outermostAtoms_inside c⟩,
    rfl, ?_⟩
  unfold CollectAtoms
  rw [collectAtoms_eq_nil_iff]
  constructor
  · intro h a ha hat
    have h1 := h a ha
    rw [(isAtomic_iff a).mpr hat] at h1
    cases h1
  · intro h a ha
    cases hat : isAtomic a
    · rfl
    · exact absurd ((isAtomic_iff a).mp hat) (h a ha)

/-! ## Patching only inserts wrappers -/

theorem unwrapCondList_eq (l : List Node) : unwrapCondList l = l.map unwrapCond := by
  induction l with
  | nil => rfl
  | cons n ns ih => simp [unwrapCondList, ih]

theorem unwrapCondOpt_eq (o : Option Node) : unwrapCondOpt o = o.map unwrapCond := by
  cases o <;> rfl

theorem unwrapCond_of_not_condCall (n : Node) (h : IsCondCall n = false) :
    unwrapCond n = mapChildren unwrapCond n := by
  cases n <;> simp [unwrapCond, mapChildren, unwrapCondList_eq, unwrapCondOpt_eq, h]

theorem unwrapCond_condCall (spec : ConditionSpec) (n : Node) :
    unwrapCond (condCall spec n) = unwrapCond n := by
  simp [condCall, unwrapCond, unwrapCondList, IsCondCall]

theorem map_comp_of_forall {f g : Node → Node} (l : List Node) (h : ∀ c ∈ l, f (g c) = c) :
    l.map (f ∘ g) = l := by
  induction l with
  | nil => rfl
  | cons c cs ih =>
    simp only [List.map_cons, Function.comp_apply, h c (List.mem_cons_self _ _),
      ih (fun d hd => h d (List.mem_cons_of_mem _ hd))]

theorem option_map_comp_of_forall {f g : Node → Node} (o : Option Node)
    (h : ∀ c ∈ o, f (g c) = c) : o.map (f ∘ g) = o := by
  cases o with
  | none => rfl
  | some c => simp only [Option.map_some', Function.comp_apply, h c rfl]

/-- Undoing on every child what was done on every child gives the node back. -/
theorem mapChildren_mapChildren_of_forall {f g : Node → Node} (n : Node)
    (h : ∀ c ∈ directChildren n, f (g c) = c) : mapChildren f (mapChildren g n) = n := by
  cases n with
  | call callee arguments =>
    simp only [directChildren, List.mem_cons, forall_eq_or_imp] at h
    simp only [mapChildren, List.map_map, h.1, map_comp_of_forall _ h.2]
  | builtin name arguments map =>
    simp only [directChildren, List.mem_append, Option.mem_toList] at h
    simp only [mapChildren, List.map_map, Option.map_map,
      map_comp_of_forall _ (fun c hc => h c (Or.inr hc)),
      option_map_comp_of_forall _ (fun c hc => h c (Or.inl hc))]
  | slice node sfrom sto =>
    simp only [directChildren, List.mem_cons, List.mem_append, Option.mem_toList,
      forall_eq_or_imp] at h
    simp only [mapChildren, Option.map_map, h.1,
      option_map_comp_of_forall _ (fun c hc => h.2 c (Or.inl hc)),
      option_map_comp_of_forall _ (fun c hc => h.2 c (Or.inr hc))]
  | array nodes =>
    simp only [directChildren] at h
    simp only [mapChildren, List.map_map, map_comp_of_forall _ h]
  | map pairs =>
    simp only [directChildren] at h
    simp only [mapChildren, List.map_map, map_comp_of_forall _ h]
  | sequence nodes =>
    simp only [directChildren] at h
    simp only [mapChildren, List.map_map, map_comp_of_forall _ h]
  | unary operator node =>
    simp only [mapChildren, h node (List.mem_singleton.mpr rfl)]
  | predicate node =>
    simp only [mapChildren, h node (List.mem_singleton.mpr rfl)]
  | chain node =>
    simp only [mapChildren, h node (List.mem_singleton.mpr rfl)]
  | binary operator left right =>
    simp only [mapChildren, h left (List.mem_pair.mpr (Or.inl rfl)),
      h right (List.mem_pair.mpr (Or.inr rfl))]
  | member node property optional method =>
    simp only [mapChildren, h node (List.mem_pair.mpr (Or.inl rfl)),
      h property (List.mem_pair.mpr (Or.inr rfl))]
  | pair key value =>
    simp only [mapChildren, h key (List.mem_pair.mpr (Or.inl rfl)),
      h value (List.mem_pair.mpr (Or.inr rfl))]
  | variableDeclarator name value expr =>
    simp only [mapChildren, h value (List.mem_pair.mpr (Or.inl rfl)),
      h expr (List.mem_pair.mpr (Or.inr rfl))]
  | conditional cond exp1 exp2 =>
    simp only [directChildren, List.mem_cons, List.mem_singleton, List.mem_nil_iff, or_false,
      forall_eq_or_imp, forall_eq] at h
    simp only [mapChildren, h.1, h.2.1, h.2.2]
  | _ => rfl

theorem walk_eq_identifier (fingerprint : String → String) (specs : Specs) (n : Node)
    (value : String) (h : walk fingerprint specs n = .identifier value) :
    n = .identifier value := by
  rw [walk_eq_wrapAtom_mapChildren] at h
  rcases wrapAtom_cases fingerprint specs (mapChildren (walk fingerprint specs) n) with e | ⟨s, e⟩
  · rw [e] at h
    cases n <;> simp [mapChildren] at h ⊢
    exact h
  · rw [e] at h
    simp [condCall] at h

theorem isCondCall_mapChildren_walk (fingerprint : String → String) (specs : Specs)
    (n : Node) (h : IsCondCall n = false) :
    IsCondCall (mapChildren (walk fingerprint specs) n) = false := by
  cases n with
  | call callee arguments =>
    simp only [mapChildren]
    cases hc : IsCondCall (.call (walk fingerprint specs callee)
        (arguments.map (walk fingerprint specs))) with
    | false => rfl
    | true =>
      cases hw : walk fingerprint specs callee <;> rw [hw] at hc <;>
        simp [IsCondCall] at hc
      rename_i value
      rw [hc] at hw
      rw [walk_eq_identifier fingerprint specs callee "Cond" hw] at h
      simp [IsCondCall] at h
  | _ => simp [mapChildren, IsCondCall]

/-- Taking the wrappers off a patched tree without `Cond` calls of its own gives the tree. -/
theorem unwrapCond_walk (fingerprint : String → String) (specs : Specs) (n : Node) :
    (∀ a ∈ subnodes n, IsCondCall a = false) →
      unwrapCond (walk fingerprint specs n) = n := by
  induction n using childInduction with
  | h n ih =>
    intro hno
    rw [subnodes_children] at hno
    have hn : IsCondCall n = false := hno n (List.mem_cons_self _ _)
    have hch : ∀ c ∈ directChildren n, unwrapCond (walk fingerprint specs c) = c :=
      fun c hc => ih c hc (fun a ha =>
        hno a (List.mem_cons_of_mem _ (List.mem_flatMap.mpr ⟨c, hc, ha⟩)))
    have hX : unwrapCond (mapChildren (walk fingerprint specs) n) = n := by
      rw [unwrapCond_of_not_condCall _ (isCondCall_mapChildren_walk fingerprint specs n hn)]
      exact mapChildren_mapChildren_of_forall n hch
    rw [walk_eq_wrapAtom_mapChildren]
    rcases wrapAtom_cases fingerprint specs (mapChildren (walk fingerprint specs) n)
      with e | ⟨s, e⟩
    · rw [e, hX]
    · rw [e, unwrapCond_condCall, hX]

/-- C24. For every tree without a `Cond` call, every fingerprint function and every specs
map, replacing each call `Cond(_, _, _, x)` of the patched tree by its fourth argument gives
the tree back: the patcher only inserts wrappers. -/
theorem wrap_only_inserts (root : Node) (fingerprint : String → String) (specs : Specs)
    (h : ∀ a ∈ subnodes root, IsCondCall a = false) :
    unwrapCond (WrapAtomsWithCond root fingerprint specs) = root := by
  unfold WrapAtomsWithCond
  by_cases hs : specs.length = 0
  · rw [if_pos hs]
    have h0 := unwrapCond_walk fingerprint [] root h
    rw [walk_eq_self fingerprint [] root (fun a _ _ => by simp [hasSpec, List.lookup])] at h0
    exact h0
  · rw [if_neg hs]
    exact unwrapCond_walk fingerprint specs root h

set_option maxRecDepth 100000 in
/-- C22 (the code at the failing input). The atom `a == 1 == true` holds the atom `a == 1`, and
the canonical forms of both have fingerprints that are keys of `specsNested` with non-empty
IDs.  Patching wraps the inner atom only: the result is
`Cond("c_a", "A_IS_ONE", "A_NOT_ONE", a == 1) == true`, because the outer atom is looked up
under the fingerprint of its canonical form after the inner atom was wrapped. -/
theorem nested_outer_atom_not_wrapped :
    IsAtomNode atomNested = true ∧ atomA ∈ (subnodes atomNested).tail ∧
    hasSpec Fingerprint specsNested atomNested = true ∧
    hasSpec Fingerprint specsNested atomA = true ∧
    Format (WrapAtomsWithCond atomNested Fingerprint specsNested) =
      "Cond(\"c_a\", \"A_IS_ONE\", \"A_NOT_ONE\", a == 1) == true" := by
  refine ⟨by decide, ?_, by decide, by decide, by decide⟩
  simp [atomNested, subnodes, atomA]

set_option maxRecDepth 100000 in
/-- C24 at `a == 1 || ok` with the specs map `specsA`. -/
theorem wrap_only_inserts_witness :
    (∀ a ∈ subnodes (.binary "||" atomA (.identifier "ok")), IsCondCall a = false) ∧
    Format (WrapAtomsWithCond (.binary "||" atomA (.identifier "ok")) Fingerprint specsA) =
      "Cond(\"c_a\", \"A_IS_ONE\", \"A_NOT_ONE\", a == 1) || ok" ∧
    unwrapCond (WrapAtomsWithCond (.binary "||" atomA (.identifier "ok")) Fingerprint specsA) =
      .binary "||" atomA (.identifier "ok") :=
  ⟨by decide, by decide, wrap_only_inserts _ Fingerprint specsA (by decide)⟩

/-- The outermost atoms of `not (a == 1) || f(b == 2, a == 1 == true)`. -/
theorem collectAtoms_example :
    (CollectAtoms (.binary "||" (.unary "not" atomA)
        (.call (.identifier "f") [atomB, atomNested]))).map Format =
      ["a == 1", "b == 2", "a == 1 == true"] := by
  decide

/-- The escaped form of a text with a quote, a backslash and a newline. -/
theorem escapeString_example : escapeString "a\"b\\c\n" = "a\\\"b\\\\c\\n" := by
  decide

end Ruletrace
